import Mathlib

set_option maxRecDepth 10000

/-
Verification of the abstract interpreter (interval domain) against its
specification.  The Rust sources are shallowly embedded: machine integers
become ℤ, panics become Option.none, the process-global bounds M, N become
explicit parameters m n, and unbounded while-loops take a fuel parameter.
-/

/-- Truncated integer division (rounds toward zero), as Rust's i64 `/`. -/
def tdivZ (a b : ℤ) : ℤ := Int.tdiv a b

namespace AbsInt

/-- Extended integer: {−∞} ∪ ℤ ∪ {+∞}.  Source: enum Int in
src/abstract_domains/int.rs. -/
inductive Int where
  | NegInf
  | Num (x : ℤ)
  | PosInf
deriving DecidableEq

/-- Derived total order (NegInf < Num _ < PosInf, Num by value): `a <= b`.
Source: derive(PartialOrd, Ord) on Int. -/
def Int.ble : Int → Int → Bool
  | .NegInf, _ => true
  | .Num _, .NegInf => false
  | .Num x, .Num y => decide (x ≤ y)
  | .Num _, .PosInf => true
  | .PosInf, .PosInf => true
  | .PosInf, _ => false

/-- Strict order `a < b`, i.e. not `b <= a`. -/
def Int.blt (a b : Int) : Bool := !(Int.ble b a)

/-- Rust std::cmp::min (returns the first argument on ties). -/
def Int.min (a b : Int) : Int := if Int.blt b a then b else a

/-- Rust std::cmp::max (returns the second argument on ties). -/
def Int.max (a b : Int) : Int := if Int.blt b a then a else b

/-- Negation; swaps infinities.  Source: impl Neg for Int. -/
def Int.neg : Int → Int
  | .NegInf => .PosInf
  | .PosInf => .NegInf
  | .Num x => .Num (-x)

/-- Addition.  The arms mirror impl Add for Int in order; the panic on
mixing PosInf and NegInf is none. -/
def Int.add (a b : Int) : Option Int :=
  if (a = .NegInf ∧ b ≠ .PosInf) ∨ (b = .NegInf ∧ a ≠ .PosInf) then some .NegInf
  else if (a = .PosInf ∧ b ≠ .NegInf) ∨ (b = .PosInf ∧ a ≠ .NegInf) then some .PosInf
  else
    match a, b with
    | .Num x, .Num y => some (.Num (x + y))
    | _, _ => none

/-- Subtraction.  Arms mirror impl Sub for Int in order; the panic
(same-signed infinities) is none. -/
def Int.sub (a b : Int) : Option Int :=
  if a = .NegInf ∧ b ≠ .NegInf then some .NegInf
  else if b = .NegInf ∧ a ≠ .NegInf then some .PosInf
  else if a = .PosInf ∧ b ≠ .PosInf then some .PosInf
  else if b = .PosInf ∧ a ≠ .PosInf then some .NegInf
  else
    match a, b with
    | .Num x, .Num y => some (.Num (x - y))
    | _, _ => none

/-- Multiplication.  Arms mirror impl Mul for Int in order: infinite pairs
first, then the zero absorbers, then sign rules; the catch-all panic arm is
none (it is unreachable). -/
def Int.mul (a b : Int) : Option Int :=
  if a = .NegInf ∧ b = .NegInf then some .PosInf
  else if a = .PosInf ∧ b = .PosInf then some .PosInf
  else if (a = .NegInf ∧ b = .PosInf) ∨ (a = .PosInf ∧ b = .NegInf) then some .NegInf
  else if a = .Num 0 then some a
  else if b = .Num 0 then some b
  else
    match a, b with
    | .Num x, .NegInf | .NegInf, .Num x =>
      if x < 0 then some .PosInf else if x > 0 then some .NegInf else none
    | .Num x, .PosInf | .PosInf, .Num x =>
      if x > 0 then some .PosInf else if x < 0 then some .NegInf else none
    | .Num x, .Num y => some (.Num (x * y))
    | _, _ => none

/-- Division.  Arms mirror impl Div for Int in order: any numerator over an
infinity (and 0/0) is 0, finite-or-infinite x over 0 follows sign(x), and
Num/Num truncates toward zero; every remaining shape (an infinity divided by
a finite nonzero value) hits the catch-all panic, i.e. none. -/
def Int.div (a b : Int) : Option Int :=
  if b = .NegInf ∨ b = .PosInf ∨ (a = .Num 0 ∧ b = .Num 0) then some (.Num 0)
  else if b = .Num 0 ∧ Int.blt (.Num 0) a then some .PosInf
  else if b = .Num 0 ∧ Int.blt a (.Num 0) then some .NegInf
  else
    match a, b with
    | .Num x, .Num y => some (.Num (tdivZ x y))
    | _, _ => none

/-- Rendering of an extended integer.  Source: impl Into<String> for Int. -/
def Int.render : Int → String
  | .PosInf => "inf"
  | .NegInf => "-inf"
  | .Num x => toString x

/-- Interval abstract value: a pair of extended integers.
Source: struct Interval in src/abstract_domains/interval.rs. -/
structure Interval where
  low : Int
  upper : Int
deriving DecidableEq

/-- The TOP constant ⟨−∞, +∞⟩. -/
def TOP : Interval := ⟨.NegInf, .PosInf⟩

/-- The canonical BOTTOM constant ⟨+∞, −∞⟩. -/
def BOTTOM : Interval := ⟨.PosInf, .NegInf⟩

/-- The ZERO constant ⟨0, 0⟩. -/
def ZERO : Interval := ⟨.Num 0, .Num 0⟩

/-- The is_bottom closure of PartialEq::eq: low > upper. -/
def Interval.isBottom (i : Interval) : Bool := Int.blt i.upper i.low

/-- The is_top closure of PartialEq::eq, depending on the bounds m, n. -/
def Interval.isTop (m n : Int) (i : Interval) : Bool :=
  if Int.blt n m then Int.blt i.low i.upper
  else (Int.blt i.low m && Int.blt n i.upper) || (i.low = .NegInf && i.upper = .PosInf)

/-- Interval equality under the current bounds.
Source: impl PartialEq for Interval, translated clause for clause. -/
def Interval.beq (m n : Int) (s o : Interval) : Bool :=
  if (s.isBottom && o.isBottom) || (Interval.isTop m n s && Interval.isTop m n o) then true
  else if s.isBottom || o.isBottom then false
  else if Interval.isTop m n s || Interval.isTop m n o then false
  else if Int.blt n m && s.low ≠ o.low then false
  else if (s.low = o.low && s.upper = o.upper)
       || (Int.ble s.upper m && Int.ble o.upper m)
       || (Int.ble n s.low && Int.ble n o.low)
       || (Int.blt s.low m && Int.blt o.low m && s.upper = o.upper)
       || (s.low = o.low && Int.blt n s.upper && Int.blt n o.upper) then true
  else false

/-- Partial comparison.  Source: impl PartialOrd for Interval.  Less holds
for BOTTOM vs non-BOTTOM, non-TOP vs TOP, or strict inclusion of both raw
endpoints; everything else (except equality) is incomparable. -/
def Interval.pcmp (m n : Int) (s o : Interval) : Option Ordering :=
  if Interval.beq m n s o then some .eq
  else if (Interval.beq m n s BOTTOM && !Interval.beq m n o BOTTOM)
       || (!Interval.beq m n s TOP && Interval.beq m n o TOP)
       || (Int.blt o.low s.low && Int.blt s.upper o.upper) then some .lt
  else none

/-- Rust's `<=` on Interval: partial_cmp is Some(Less) or Some(Equal). -/
def Interval.le (m n : Int) (s o : Interval) : Bool :=
  match Interval.pcmp m n s o with
  | some .lt => true
  | some .eq => true
  | _ => false

/-- Join: componentwise min/max.  Source: Interval::union_abstraction. -/
def Interval.union_abstraction (s o : Interval) : Interval :=
  ⟨Int.min s.low o.low, Int.max s.upper o.upper⟩

/-- Meet: componentwise max/min.  Source: Interval::intersection_abstraction. -/
def Interval.intersection_abstraction (s o : Interval) : Interval :=
  ⟨Int.max s.low o.low, Int.min s.upper o.upper⟩

/-- Singleton abstraction ⟨c, c⟩.  Source: Interval::constant_abstraction. -/
def Interval.constant_abstraction (c : ℤ) : Interval := ⟨.Num c, .Num c⟩

/-- Interval addition.  Source: impl Add for Interval; the none case is the
extended-integer addition panic. -/
def Interval.add (m n : Int) (s r : Interval) : Option Interval :=
  if Interval.beq m n s BOTTOM || Interval.beq m n r BOTTOM then some BOTTOM
  else if Interval.beq m n s TOP || Interval.beq m n r TOP then some TOP
  else do
    let low ← Int.add s.low r.low
    let upper ← Int.add s.upper r.upper
    some ⟨low, upper⟩

/-- Interval subtraction ⟨a−d, b−c⟩.  Source: impl Sub for Interval. -/
def Interval.sub (m n : Int) (s r : Interval) : Option Interval :=
  if Interval.beq m n s BOTTOM || Interval.beq m n r BOTTOM then some BOTTOM
  else if Interval.beq m n s TOP || Interval.beq m n r TOP then some TOP
  else do
    let low ← Int.sub s.low r.upper
    let upper ← Int.sub s.upper r.low
    some ⟨low, upper⟩

/-- Least of four extended integers; equals position 0 of the sorted array of
the four corner products in the source. -/
def Int.min4 (a b c d : Int) : Int := Int.min (Int.min (Int.min a b) c) d

/-- Greatest of four extended integers; equals position 3 of the sorted array
of the four corner products in the source. -/
def Int.max4 (a b c d : Int) : Int := Int.max (Int.max (Int.max a b) c) d

/-- Interval multiplication by corner products.  Source: impl Mul for
Interval; sorting the corner products and taking positions 0 and 3 is
embedded as min4/max4. -/
def Interval.mul (m n : Int) (s r : Interval) : Option Interval :=
  if Interval.beq m n s BOTTOM || Interval.beq m n r BOTTOM then some BOTTOM
  else if Interval.beq m n s ZERO || Interval.beq m n r ZERO then some ZERO
  else if Interval.beq m n s TOP || Interval.beq m n r TOP then some TOP
  else do
    let p1 ← Int.mul s.low r.low
    let p2 ← Int.mul s.low r.upper
    let p3 ← Int.mul s.upper r.low
    let p4 ← Int.mul s.upper r.upper
    some ⟨Int.min4 p1 p2 p3 p4, Int.max4 p1 p2 p3 p4⟩

/-- Rank of the divisor used only to justify termination of Interval.div:
the nonnegative-divisor branch is 0, the nonpositive one 1, a straddling
divisor 2; each recursive call strictly decreases it. -/
def Interval.divRank (r : Interval) : ℕ :=
  if Int.ble (.Num 0) r.low then 0 else if Int.ble r.upper (.Num 0) then 1 else 2

theorem Interval.divRank_negate (r : Interval) (h1 : Int.ble (.Num 0) r.low = false)
    (h2 : Int.ble r.upper (.Num 0) = true) :
    Interval.divRank ⟨Int.neg r.upper, Int.neg r.low⟩ < Interval.divRank r := by
  obtain ⟨rl, ru⟩ := r
  have hp : Int.ble (.Num 0) (Int.neg ru) = true := by
    cases ru <;> simp_all [Int.ble, Int.neg] <;> omega
  simp only [Interval.divRank] at h1 h2 ⊢
  rw [hp, h1, h2]
  simp

theorem Interval.divRank_split_left (r : Interval) (h1 : Int.ble (.Num 0) r.low = false)
    (h2 : Int.ble r.upper (.Num 0) = false) :
    Interval.divRank ⟨r.low, .Num 0⟩ < Interval.divRank r := by
  obtain ⟨rl, ru⟩ := r
  simp only [Interval.divRank] at h1 h2 ⊢
  rw [h1, h2]
  simp [Int.ble]

theorem Interval.divRank_split_right (r : Interval) (h1 : Int.ble (.Num 0) r.low = false)
    (h2 : Int.ble r.upper (.Num 0) = false) :
    Interval.divRank ⟨.Num 0, r.upper⟩ < Interval.divRank r := by
  obtain ⟨rl, ru⟩ := r
  simp only [Interval.divRank] at h1 h2 ⊢
  rw [h1, h2]
  have h0 : Int.ble (.Num 0) (.Num 0) = true := by decide
  rw [h0]
  simp

/-- Interval division.  Source: impl Div for Interval: corner quotients when
the divisor is nonnegative, negate-and-recurse when it is nonpositive, and
split at zero otherwise; division by the ZERO interval is BOTTOM.  There is
no TOP shortcut in the source. -/
def Interval.div (m n : Int) (s r : Interval) : Option Interval :=
  if Interval.beq m n s BOTTOM || Interval.beq m n r BOTTOM then some BOTTOM
  else if Interval.beq m n r ZERO then some BOTTOM
  else if h1 : Int.ble (.Num 0) r.low = true then do
    let q1 ← Int.div s.low r.low
    let q2 ← Int.div s.low r.upper
    let q3 ← Int.div s.upper r.low
    let q4 ← Int.div s.upper r.upper
    some ⟨Int.min4 q1 q2 q3 q4, Int.max4 q1 q2 q3 q4⟩
  else if h2 : Int.ble r.upper (.Num 0) = true then
    Interval.div m n ⟨Int.neg s.upper, Int.neg s.low⟩ ⟨Int.neg r.upper, Int.neg r.low⟩
  else do
    let x ← Interval.div m n s ⟨r.low, .Num 0⟩
    let y ← Interval.div m n s ⟨.Num 0, r.upper⟩
    some (Interval.union_abstraction x y)
termination_by Interval.divRank r
decreasing_by
  all_goals first
  | exact Interval.divRank_negate r (by simpa using h1) h2
  | exact Interval.divRank_split_left r (by simpa using h1) (by simpa using h2)
  | exact Interval.divRank_split_right r (by simpa using h1) (by simpa using h2)

/-- Interval bound given in a program or configuration.
Source: enum IntervalBound in src/abstract_domains/abstract_domain.rs. -/
inductive IntervalBound where
  | NegInf
  | Num (x : ℤ)
  | PosInf
deriving DecidableEq

/-- Builds an interval from concrete bounds; a PosInf low or NegInf upper
panics in the source, hence none.  Source: Interval::interval_abstraction. -/
def Interval.interval_abstraction : IntervalBound → IntervalBound → Option Interval
  | .NegInf, .PosInf => some ⟨.NegInf, .PosInf⟩
  | .NegInf, .Num u => some ⟨.NegInf, .Num u⟩
  | .Num l, .PosInf => some ⟨.Num l, .PosInf⟩
  | .Num l, .Num u => some ⟨.Num l, .Num u⟩
  | _, _ => none

/-- Whether Interval::widening_operator returns Some: it returns None when
m > n or when both bounds are finite.  Source: Interval::widening_operator. -/
def wideningActive (m n : Int) : Bool :=
  !(Int.blt n m || (decide (m ≠ .NegInf) && decide (n ≠ .PosInf)))

/-- The widening function: keep a stable endpoint, otherwise jump to the
nearest enclosing threshold (default −∞ / +∞).  The source folds over the
threshold set keeping the best candidate; the fold below is that loop.
Source: widening_op in Interval::widening_operator. -/
def Interval.widening_op (lhs rhs : Interval) (thresholds : List ℤ) : Interval :=
  let ts : List Int := thresholds.map Int.Num
  let low := if Int.ble lhs.low rhs.low then lhs.low
    else ts.foldl (fun t x => if Int.blt t x && Int.ble x rhs.low then x else t) Int.NegInf
  let upper := if Int.ble rhs.upper lhs.upper then lhs.upper
    else ts.foldl (fun t x => if Int.blt x t && Int.ble rhs.upper x then x else t) Int.PosInf
  ⟨low, upper⟩

/-- Narrowing: an infinite endpoint of the left operand is replaced by the
right operand's endpoint.  Source: Interval::narrowing. -/
def Interval.narrowing (s r : Interval) : Interval :=
  ⟨if s.low = .NegInf then r.low else s.low,
   if s.upper = .PosInf then r.upper else s.upper⟩

/-- Rendering of an interval under the current bounds.
Source: impl Into<String> for Interval. -/
def Interval.render (m n : Int) (s : Interval) : String :=
  let lu : Int × Int :=
    if Interval.beq m n s TOP then (.NegInf, .PosInf)
    else if Int.ble m n then
      (if Int.blt s.low m then .NegInf else if Int.blt n s.low then n else s.low,
       if Int.blt s.upper m then n else if Int.blt n s.upper then .PosInf else s.upper)
    else (s.low, s.upper)
  "[" ++ Int.render lu.1 ++ "," ++ Int.render lu.2 ++ "]"

/-- Membership of a concrete integer in the concretization of an interval:
low ≤ z ≤ upper in the extended order. -/
def Interval.mem (s : Interval) (z : ℤ) : Prop :=
  Int.ble s.low (.Num z) = true ∧ Int.ble (.Num z) s.upper = true

instance (s : Interval) (z : ℤ) : Decidable (Interval.mem s z) := by
  unfold Interval.mem
  infer_instance

/-- The concretization γ of an interval. -/
def Interval.gamma (s : Interval) : Set ℤ := {z | Interval.mem s z}

/-- Arithmetic operator of the source language.
Source: enum Operator in src/parser/ast.rs. -/
inductive Operator where
  | Add
  | Sub
  | Mul
  | Div
deriving DecidableEq

/-- Backward (inverse) arithmetic transformer: refines the operands lhs and
rhs of `result = lhs op rhs`.  Source:
AbstractDomain::backward_arithmetic_operator, with the interval domain's
operations; interval_abstraction(−1, 1) and (0, 0) are the literal intervals
⟨−1, 1⟩ and ⟨0, 0⟩.  none models the panics of the underlying arithmetic. -/
def backward_arithmetic_operator (m n : Int) (lhs rhs result : Interval) :
    Operator → Option (Interval × Interval)
  | .Add => do
    let d1 ← Interval.sub m n result rhs
    let d2 ← Interval.sub m n result lhs
    some (lhs.intersection_abstraction d1, rhs.intersection_abstraction d2)
  | .Sub => do
    let a1 ← Interval.add m n result rhs
    let a2 ← Interval.sub m n lhs result
    some (lhs.intersection_abstraction a1, rhs.intersection_abstraction a2)
  | .Mul => do
    let q1 ← Interval.div m n result rhs
    let q2 ← Interval.div m n lhs result
    some (lhs.intersection_abstraction q1, rhs.intersection_abstraction q2)
  | .Div => do
    let s ← Interval.add m n result ⟨.Num (-1), .Num 1⟩
    let p ← Interval.mul m n s rhs
    let q ← Interval.div m n lhs s
    some (lhs.intersection_abstraction p,
          rhs.intersection_abstraction (q.union_abstraction ZERO))

end AbsInt

namespace AbsInt

/-- Abstract state: a finite map from variable names to intervals; the empty
map is the bottom (unreachable) state.  Source: struct State in src/state.rs
(HashMap<&str, D>), embedded as an association list with distinct keys. -/
abbrev State : Type := List (String × Interval)

/-- The bottom state (empty map).  Source: State::bottom. -/
def State.bottom : State := []

/-- Key lookup; none models the .unwrap() panic on an absent key.
Source: State::lookup. -/
def State.lookup (s : State) (v : String) : Option Interval :=
  match s with
  | [] => none
  | p :: rest => if p.1 = v then some p.2 else State.lookup rest v

/-- Replaces the value stored under an existing key (HashMap::insert on a
contained key). -/
def State.setKey (s : State) (v : String) (x : Interval) : State :=
  match s with
  | [] => []
  | p :: rest => if p.1 = v then (v, x) :: rest else p :: State.setKey rest v x

/-- Key set of a state. -/
def State.keys (s : State) : List String := s.map Prod.fst

/-- Whether the state contains a key (HashMap::contains_key). -/
def State.contains (s : State) (v : String) : Bool := (State.lookup s v).isSome

/-- Update of one variable: a bottom value collapses the whole state to
bottom, and only existing keys are written.  Source: State::update. -/
def State.update (m n : Int) (s : State) (v : String) (x : Interval) : State :=
  let s1 := if Interval.beq m n x BOTTOM then State.bottom else s
  if State.contains s1 v then State.setKey s1 v x else s1

/-- Pointwise join of two states; an empty (bottom) operand returns the
other one.  Source: State::lub_var_wise; the per-variable D::lub of the
source is the interval join union_abstraction. -/
def State.lub_var_wise (s o : State) : State :=
  if s = [] then o
  else if o = [] then s
  else o.foldl (fun r p =>
    match State.lookup r p.1 with
    | some old => State.setKey r p.1 (old.union_abstraction p.2)
    | none => r ++ [p]) s

/-- Pointwise meet of two states; an empty (bottom) operand gives bottom.
The source asserts that the key sets agree (none models the assert panic);
the per-variable D::glb is the interval meet intersection_abstraction.
Source: State::glb_var_wise. -/
def State.glb_var_wise (s o : State) : Option State :=
  if s = [] ∨ o = [] then some State.bottom
  else if (State.keys s).all (fun v => State.contains o v) then
    some (o.foldl (fun r p =>
      match State.lookup r p.1 with
      | some old => State.setKey r p.1 (old.intersection_abstraction p.2)
      | none => r ++ [p]) s)
  else none

/-- HashMap equality of two states under the current bounds: equal key sets
and pointwise equal values via the interval PartialEq.  Source: derived
PartialEq of State. -/
def State.beq (m n : Int) (s o : State) : Bool :=
  s.all (fun p =>
    match State.lookup o p.1 with
    | some w => Interval.beq m n p.2 w
    | none => false)
  && o.all (fun p => State.contains s p.1)

/-- Pointwise widening with thresholds; an empty operand returns the other
one, and the source's key-set assert is none.  Source: State::widening. -/
def State.widening (s rhs : State) (thresholds : List ℤ) : Option State :=
  if s = [] then some rhs
  else if rhs = [] then some s
  else if (State.keys s).all (fun v => State.contains rhs v) then
    s.mapM (fun p => do
      let w ← State.lookup rhs p.1
      some (p.1, Interval.widening_op p.2 w thresholds))
  else none

/-- Pointwise narrowing; an empty operand returns the other one, and the
source's key-set assert is none.  Source: State::narrowing. -/
def State.narrowing (s rhs : State) : Option State :=
  if s = [] then some rhs
  else if rhs = [] then some s
  else if (State.keys s).all (fun v => State.contains rhs v) then
    s.mapM (fun p => do
      let w ← State.lookup rhs p.1
      some (p.1, Interval.narrowing p.2 w))
  else none

/-- Line and column of a while-statement, the key of the invariant map.
Source: struct Position in src/parser/ast.rs. -/
structure Position where
  line : ℕ
  clm : ℕ
deriving DecidableEq

/-- Arithmetic expression of the source language.
Source: enum ArithmeticExp in src/parser/ast.rs. -/
inductive ArithmeticExp where
  | Integer (x : ℤ)
  | Variable (v : String)
  | BinaryOperation (lhs : ArithmeticExp) (operator : Operator) (rhs : ArithmeticExp)
deriving DecidableEq

/-- Comparison operator of a normalized condition `e op 0`.
Source: enum ConditionOperator in src/parser/ast.rs. -/
inductive ConditionOperator where
  | Equal
  | NotEqual
  | StrictlyLess
  | GreaterOrEqual
deriving DecidableEq

/-- Complement of a condition operator.  Source: impl Neg for
ConditionOperator. -/
def ConditionOperator.negated : ConditionOperator → ConditionOperator
  | .Equal => .NotEqual
  | .NotEqual => .Equal
  | .StrictlyLess => .GreaterOrEqual
  | .GreaterOrEqual => .StrictlyLess

/-- Normalized atomic condition `lhs op 0`.
Source: struct ArithmeticCondition in src/parser/ast.rs. -/
structure ArithmeticCondition where
  lhs : ArithmeticExp
  operator : ConditionOperator
deriving DecidableEq

/-- Boolean expression.  Source: enum BooleanExp in src/parser/ast.rs. -/
inductive BooleanExp where
  | Boolean (b : Bool)
  | ArithmeticCondition (c : ArithmeticCondition)
  | And (lhs rhs : BooleanExp)
  | Or (lhs rhs : BooleanExp)
deriving DecidableEq

/-- Negation of a Boolean expression: De Morgan plus operator
complementation.  Source: impl Not for BooleanExp and for
ArithmeticCondition. -/
def BooleanExp.negated : BooleanExp → BooleanExp
  | .Boolean b => .Boolean (!b)
  | .ArithmeticCondition c => .ArithmeticCondition ⟨c.lhs, c.operator.negated⟩
  | .And l r => .Or l.negated r.negated
  | .Or l r => .And l.negated r.negated

/-- Statement of the source language.  Source: enum Statement in
src/parser/ast.rs. -/
inductive Statement where
  | Assignment (var : String) (value : ArithmeticExp)
  | Skip
  | Composition (lhs rhs : Statement)
  | Conditional (guard : BooleanExp) (true_branch false_branch : Statement)
  | While (pos : Position) (guard : BooleanExp) (body : Statement)
deriving DecidableEq

/-- Integer literals of an arithmetic expression (widening thresholds).
The source collects them into a HashSet; duplicates and order do not affect
the widening fold, so a list suffices.
Source: ArithmeticExp::extract_constants. -/
def ArithmeticExp.extract_constants : ArithmeticExp → List ℤ
  | .Integer x => [x]
  | .Variable _ => []
  | .BinaryOperation l _ r => l.extract_constants ++ r.extract_constants

/-- Integer literals of a Boolean expression.
Source: BooleanExp::extract_constant. -/
def BooleanExp.extract_constant : BooleanExp → List ℤ
  | .Boolean _ => []
  | .ArithmeticCondition c => c.lhs.extract_constants
  | .And l r => l.extract_constant ++ r.extract_constant
  | .Or l r => l.extract_constant ++ r.extract_constant

/-- Integer literals of a statement.  Source: Statement::extract_constant. -/
def Statement.extract_constant : Statement → List ℤ
  | .Skip => []
  | .Assignment _ e => e.extract_constants
  | .Composition l r => l.extract_constant ++ r.extract_constant
  | .Conditional g t f => g.extract_constant ++ t.extract_constant ++ f.extract_constant
  | .While _ g b => g.extract_constant ++ b.extract_constant

/-- Abstract evaluation of an arithmetic expression under a state: lookup
for variables, constant abstraction for literals, the interval forward
operators for binary nodes.  Source: Interpreter::aexp_eval. -/
def aexp_eval (m n : Int) : ArithmeticExp → State → Option Interval
  | .Variable v, s => State.lookup s v
  | .Integer x, _ => some (Interval.constant_abstraction x)
  | .BinaryOperation l op r, s => do
    let lv ← aexp_eval m n l s
    let rv ← aexp_eval m n r s
    match op with
    | .Add => Interval.add m n lv rv
    | .Sub => Interval.sub m n lv rv
    | .Mul => Interval.mul m n lv rv
    | .Div => Interval.div m n lv rv

/-- Map from variable names to the shared variable-leaf value slots of one
propagation tree (the var_leafs map of PropagationAlgorithm). -/
abbrev VarMap : Type := List (String × Interval)

/-- Initial leaf environment: the first occurrence of each variable creates
a slot holding the state's value; later occurrences share it.
Source: Node::build_from_aexp (variable arm). -/
def buildVarMap (state : State) : ArithmeticExp → VarMap → Option VarMap
  | .Integer _, acc => some acc
  | .Variable v, acc =>
    if State.contains acc v then some acc
    else do
      let val ← State.lookup state v
      some (acc ++ [(v, val)])
  | .BinaryOperation l _ r, acc => do
    let a1 ← buildVarMap state l acc
    buildVarMap state r a1

/-- Value stored in a freshly built node, before any forward pass: TOP for
internal nodes, the constant abstraction for integer leaves, the state's
value for variable leaves.  Source: Node::build_from_aexp. -/
def rootInit (state : State) : ArithmeticExp → Option Interval
  | .Integer c => some (Interval.constant_abstraction c)
  | .Variable v => State.lookup state v
  | .BinaryOperation _ _ _ => some TOP

/-- Propagation tree annotated with the values computed by a forward pass:
internal and constant nodes cache their value, variable leaves read the
shared slot in the VarMap. -/
inductive ANode where
  | int (c : ℤ) (value : Interval)
  | var (v : String)
  | bin (operator : Operator) (lhs rhs : ANode) (value : Interval)

/-- Current value of a node: cached for constants and internal nodes, the
shared slot for variable leaves. -/
def ANode.value (env : VarMap) : ANode → Option Interval
  | .int _ value => some value
  | .var v => State.lookup env v
  | .bin _ _ _ value => some value

/-- Forward pass: recompute every internal node's value bottom-up with the
forward arithmetic operators; leaves keep their values.
Source: Node::forward_analysis (arithmetic arms; a propagation tree built
by build_from_aexp contains only arithmetic nodes). -/
def forward_analysis (m n : Int) (env : VarMap) : ArithmeticExp → Option ANode
  | .Integer c => some (.int c (Interval.constant_abstraction c))
  | .Variable v => do
    let _ ← State.lookup env v
    some (.var v)
  | .BinaryOperation l op r => do
    let al ← forward_analysis m n env l
    let ar ← forward_analysis m n env r
    let lv ← al.value env
    let rv ← ar.value env
    let value ← match op with
      | .Add => Interval.add m n lv rv
      | .Sub => Interval.sub m n lv rv
      | .Mul => Interval.mul m n lv rv
      | .Div => Interval.div m n lv rv
    some (.bin op al ar value)

/-- Modelled from the spec: the backward pass with a refinement value and a
satisfiability result, required by PropagationAlgorithm::local_iterations
but absent from src (node.rs only holds a valueless draft).  Per section
4.4 of the spec: the refined value propagates down through the backward
arithmetic operator; a variable leaf takes the meet with its current slot
value, and a BOTTOM meet at a leaf makes the condition unsatisfiable;
constant leaves do not update but their meet must stay nonempty. -/
def backward_analysis (m n : Int) : ANode → Interval → VarMap → Option (VarMap × Bool)
  | .int _ value, incoming, env =>
    some (env, !(value.intersection_abstraction incoming).isBottom)
  | .var v, incoming, env => do
    let cur ← State.lookup env v
    let newv := cur.intersection_abstraction incoming
    some (State.setKey env v newv, !newv.isBottom)
  | .bin op l r _, incoming, env => do
    let lv ← l.value env
    let rv ← r.value env
    let (lref, rref) ← backward_arithmetic_operator m n lv rv incoming op
    let (env1, sat1) ← backward_analysis m n l lref env
    let (env2, sat2) ← backward_analysis m n r rref env1
    some (env2, sat1 && sat2)

/-- Reference slice the root must meet, per condition operator; the
NotEqual slice is built from the root's value at tree-build time.
Source: the slice match in PropagationAlgorithm::local_iterations;
interval_abstraction of (NegInf, −1), (1, PosInf), (0, PosInf) are the
literal intervals below. -/
def sliceOf (rootv : Interval) : ConditionOperator → Interval
  | .Equal => Interval.constant_abstraction 0
  | .NotEqual =>
    ((⟨.NegInf, .Num (-1)⟩ : Interval).intersection_abstraction rootv).union_abstraction
      ((⟨.Num 1, .PosInf⟩ : Interval).intersection_abstraction rootv)
  | .StrictlyLess => ⟨.NegInf, .Num (-1)⟩
  | .GreaterOrEqual => ⟨.Num 0, .PosInf⟩

/-- One local iteration loop: forward pass, meet the root with the slice,
backward pass, until the variable leaves stop changing or the condition
becomes unsatisfiable.  Source: the while loop of
PropagationAlgorithm::local_iterations; none is fuel exhaustion. -/
def localIter (m n : Int) (e : ArithmeticExp) (slice : Interval) :
    ℕ → VarMap → Option (VarMap × Bool)
  | 0, _ => none
  | fuel + 1, env => do
    let ann ← forward_analysis m n env e
    let rootv ← ann.value env
    let (env2, sat) ← backward_analysis m n ann (rootv.intersection_abstraction slice) env
    let fixpoint := State.beq m n env env2
    if !sat || fixpoint then some (env2, sat)
    else localIter m n e slice fuel env2

/-- Guard refinement for one atomic condition: build the tree and leaf
slots, iterate to a local fixpoint, then return bottom if unsatisfiable or
the state updated with the refined leaf values.
Source: PropagationAlgorithm::build plus local_iterations. -/
def local_iterations (m n : Int) (cond : ArithmeticCondition) (state : State)
    (fuel : ℕ) : Option State := do
  let env0 ← buildVarMap state cond.lhs []
  let r0 ← rootInit state cond.lhs
  let slice := sliceOf r0 cond.operator
  let (env, sat) ← localIter m n cond.lhs slice fuel env0
  if !sat then some State.bottom
  else some (env.foldl (fun st p => State.update m n st p.1 p.2) state)

/-- Task selector allowing Interpreter::bexp_eval and its two inner
state-level fixpoint loops to be one fuel-indexed function (the source's
unbounded while loops become fuel recursion). -/
inductive BexpTask where
  | eval (e : BooleanExp)
  | andLoop (lhs rhs : BooleanExp)
  | orLoop (lhs rhs : BooleanExp)

/-- Abstract evaluation of a Boolean guard.  Source:
Interpreter::bexp_eval: true is the identity, false is bottom, an atomic
condition runs the propagation algorithm, and And/Or iterate
meet/join of the recursively refined states to a state-level fixpoint
(stopping also at bottom).  none is fuel exhaustion or an inner panic. -/
def bexp_eval_core (m n : Int) (liFuel : ℕ) :
    ℕ → BexpTask → State → Option State
  | 0, _, _ => none
  | _ + 1, .eval (.Boolean true), s => some s
  | _ + 1, .eval (.Boolean false), _ => some State.bottom
  | _ + 1, .eval (.ArithmeticCondition c), s => local_iterations m n c s liFuel
  | fuel + 1, .eval (.And l r), s => bexp_eval_core m n liFuel fuel (.andLoop l r) s
  | fuel + 1, .eval (.Or l r), s => bexp_eval_core m n liFuel fuel (.orLoop l r) s
  | fuel + 1, .andLoop l r, x => do
    let a ← bexp_eval_core m n liFuel fuel (.eval l) x
    let b ← bexp_eval_core m n liFuel fuel (.eval r) x
    let current ← State.glb_var_wise a b
    if State.beq m n current x || decide (current = State.bottom) then some current
    else bexp_eval_core m n liFuel fuel (.andLoop l r) current
  | fuel + 1, .orLoop l r, x => do
    let a ← bexp_eval_core m n liFuel fuel (.eval l) x
    let b ← bexp_eval_core m n liFuel fuel (.eval r) x
    let current := State.lub_var_wise a b
    if State.beq m n current x || decide (current = State.bottom) then some current
    else bexp_eval_core m n liFuel fuel (.orLoop l r) current

/-- Interpreter::bexp_eval at the top level. -/
def bexp_eval (m n : Int) (liFuel fuel : ℕ) (e : BooleanExp) (s : State) : Option State :=
  bexp_eval_core m n liFuel fuel (.eval e) s

/-- Ordered map from program position to stored loop invariant.
Source: type ProgramInvariants (BTreeMap<Position, State>). -/
abbrev ProgramInvariants : Type := List (Position × State)

/-- Insert (or overwrite) an invariant under a position (BTreeMap::insert;
the order of the association list is irrelevant to the claims). -/
def insertInv (inv : ProgramInvariants) (pos : Position) (st : State) : ProgramInvariants :=
  match inv with
  | [] => [(pos, st)]
  | p :: rest => if p.1 = pos then (pos, st) :: rest else p :: insertInv rest pos st

/-- Lookup in the invariant map. -/
def lookupInv (inv : ProgramInvariants) (pos : Position) : Option State :=
  match inv with
  | [] => none
  | p :: rest => if p.1 = pos then some p.2 else lookupInv rest pos

/-- The sentinel position (usize::MAX, usize::MAX) under which the final
program state is stored.  Source: Interpreter::interpret. -/
def Position.sentinel : Position := ⟨2 ^ 64 - 1, 2 ^ 64 - 1⟩

/-- Task selector turning Interpreter::statement_eval and the two unbounded
loops of its While arm (post-fixpoint search by widening, then bounded
narrowing) into one fuel-indexed function. -/
inductive StmtTask where
  | stmt (s : Statement)
  | widen (guard : BooleanExp) (body : Statement) (input : State)
  | narrow (steps : ℕ) (guard : BooleanExp) (body : Statement) (input : State)

/-- Statement evaluator.  Source: Interpreter::statement_eval, with the
While arm split into the widen and narrow tasks:
the widen task iterates x to x ∇ (input ⊔ eval(body, refine(guard, x)))
when the domain's widening is active and to input ⊔ eval(body,
refine(guard, x)) otherwise, until the next iterate equals x; the narrow
task does at most `steps` iterations x to x △ (input ⊔ eval(body,
refine(guard, x))), stopping early on fixpoint.  State equality is the
state PartialEq under the current bounds.  none is fuel exhaustion or a
panic of a callee. -/
def statement_eval_core (m n : Int) (thresholds : List ℤ) (narrowing_steps liFuel loopFuel : ℕ) :
    ℕ → StmtTask → State → ProgramInvariants → Option (State × ProgramInvariants)
  | 0, _, _, _ => none
  | fuel + 1, .stmt stmt, state, inv =>
    if decide (state = State.bottom) then some (State.bottom, inv)
    else
      match stmt with
      | .Skip => some (state, inv)
      | .Assignment var value => do
        let x ← aexp_eval m n value state
        some (State.update m n state var x, inv)
      | .Composition l r => do
        let (s1, inv1) ← statement_eval_core m n thresholds narrowing_steps liFuel loopFuel fuel (.stmt l) state inv
        statement_eval_core m n thresholds narrowing_steps liFuel loopFuel fuel (.stmt r) s1 inv1
      | .Conditional guard tb fb => do
        let gt ← bexp_eval m n liFuel loopFuel guard state
        let (t, inv1) ← statement_eval_core m n thresholds narrowing_steps liFuel loopFuel fuel (.stmt tb) gt inv
        let gf ← bexp_eval m n liFuel loopFuel guard.negated state
        let (f, inv2) ← statement_eval_core m n thresholds narrowing_steps liFuel loopFuel fuel (.stmt fb) gf inv1
        some (State.lub_var_wise t f, inv2)
      | .While pos guard body => do
        let (x, inv1) ← statement_eval_core m n thresholds narrowing_steps liFuel loopFuel fuel (.widen guard body state) state inv
        let (x2, inv2) ← statement_eval_core m n thresholds narrowing_steps liFuel loopFuel fuel (.narrow narrowing_steps guard body state) x inv1
        let inv3 := insertInv inv2 pos x2
        let post ← bexp_eval m n liFuel loopFuel guard.negated x2
        some (post, inv3)
  | fuel + 1, .widen guard body input, x, inv => do
    let gx ← bexp_eval m n liFuel loopFuel guard x
    let (bodyOut, inv1) ← statement_eval_core m n thresholds narrowing_steps liFuel loopFuel fuel (.stmt body) gx inv
    let joined := State.lub_var_wise input bodyOut
    let next ← if wideningActive m n then State.widening x joined thresholds else some joined
    if State.beq m n x next then some (next, inv1)
    else statement_eval_core m n thresholds narrowing_steps liFuel loopFuel fuel (.widen guard body input) next inv1
  | _ + 1, .narrow 0 _ _ _, x, inv => some (x, inv)
  | fuel + 1, .narrow (steps + 1) guard body input, x, inv => do
    let gx ← bexp_eval m n liFuel loopFuel guard x
    let (bodyOut, inv1) ← statement_eval_core m n thresholds narrowing_steps liFuel loopFuel fuel (.stmt body) gx inv
    let joined := State.lub_var_wise input bodyOut
    let current ← State.narrowing x joined
    if State.beq m n current x then some (current, inv1)
    else statement_eval_core m n thresholds narrowing_steps liFuel loopFuel fuel (.narrow steps guard body input) current inv1

/-- Interpreter::statement_eval at the top level. -/
def statement_eval (m n : Int) (thresholds : List ℤ) (narrowing_steps liFuel loopFuel fuel : ℕ)
    (stmt : Statement) (state : State) (inv : ProgramInvariants) :
    Option (State × ProgramInvariants) :=
  statement_eval_core m n thresholds narrowing_steps liFuel loopFuel fuel (.stmt stmt) state inv

/-- Whole-program analysis: evaluate the program from the initial state and
store the final state under the sentinel position.
Source: Interpreter::interpret. -/
def interpret (m n : Int) (thresholds : List ℤ) (narrowing_steps liFuel loopFuel fuel : ℕ)
    (program : Statement) (initial : State) : Option (State × ProgramInvariants) := do
  let (last, inv) ← statement_eval m n thresholds narrowing_steps liFuel loopFuel fuel program initial []
  some (last, insertInv inv Position.sentinel last)

/-- Modelled from the spec: the normal form step of section 4.2, which has
no counterpart function in src (no operation normalizes its result): ℓ > u
is BOTTOM; under M > N a non-singleton collapses to TOP; otherwise each
endpoint saturates against (M, N). -/
def Interval.normalize (m n : Int) (v : Interval) : Interval :=
  if v.isBottom then BOTTOM
  else if Int.blt n m && decide (v.low ≠ v.upper) then TOP
  else ⟨if Int.blt v.low m then .NegInf else if Int.blt n v.low then n else v.low,
        if Int.blt n v.upper then .PosInf else if Int.blt v.upper m then m else v.upper⟩

/-- Modelled from the spec: membership of an extended integer in the set
{−∞} ∪ [M, N] ∪ {+∞} of section 3 (data model invariant). -/
def inBoundRange (m n x : Int) : Prop :=
  x = .NegInf ∨ x = .PosInf ∨ (Int.ble m x = true ∧ Int.ble x n = true)

instance (m n x : Int) : Decidable (inBoundRange m n x) := by
  unfold inBoundRange
  infer_instance

/-- Raw endpoints every interval constructor can produce: the low end is
never +∞ and the high end never −∞ (interval_abstraction panics otherwise,
TryFrom rejects, constant_abstraction is finite); the canonical BOTTOM is
the one exception and is covered by its isBottom disjunct. -/
def Interval.wfB (v : Interval) : Prop :=
  (v.low ≠ .PosInf ∧ v.upper ≠ .NegInf) ∨ v.isBottom = true

instance (v : Interval) : Decidable (Interval.wfB v) := by
  unfold Interval.wfB
  infer_instance

/-- Concrete semantics of an arithmetic expression under an integer
valuation; division is truncated and undefined on a zero divisor. -/
def aexpSem (ρ : String → ℤ) : ArithmeticExp → Option ℤ
  | .Integer c => some c
  | .Variable v => some (ρ v)
  | .BinaryOperation l op r => do
    let a ← aexpSem ρ l
    let b ← aexpSem ρ r
    match op with
    | .Add => some (a + b)
    | .Sub => some (a - b)
    | .Mul => some (a * b)
    | .Div => if b = 0 then none else some (tdivZ a b)

/-- Satisfaction of a normalized atomic condition `lhs op 0`. -/
def condSat (ρ : String → ℤ) (c : ArithmeticCondition) : Prop :=
  ∃ z, aexpSem ρ c.lhs = some z ∧
    match c.operator with
    | .Equal => z = 0
    | .NotEqual => z ≠ 0
    | .StrictlyLess => z < 0
    | .GreaterOrEqual => 0 ≤ z

/-- Satisfaction of a Boolean expression. -/
def bsat (ρ : String → ℤ) : BooleanExp → Prop
  | .Boolean b => b = true
  | .ArithmeticCondition c => condSat ρ c
  | .And l r => bsat ρ l ∧ bsat ρ r
  | .Or l r => bsat ρ l ∨ bsat ρ r

/-- Membership of a concrete valuation in the concretization of an abstract
state: the state is reachable (non-bottom) and every recorded variable
value contains the valuation's value. -/
def State.gammaMem (ρ : String → ℤ) (st : State) : Prop :=
  st ≠ State.bottom ∧ ∀ p ∈ st, Interval.mem p.2 (ρ p.1)

/-- A guard is unsatisfiable under a state when no valuation in the state's
concretization satisfies it. -/
def unsatOn (B : BooleanExp) (st : State) : Prop :=
  ∀ ρ, State.gammaMem ρ st → ¬ bsat ρ B

/-- Whether an arithmetic expression uses only addition and subtraction. -/
def ArithmeticExp.usesOnlyAddSub : ArithmeticExp → Bool
  | .Integer _ => true
  | .Variable _ => true
  | .BinaryOperation l op r =>
    (op = Operator.Add || op = Operator.Sub) && l.usesOnlyAddSub && r.usesOnlyAddSub

/-- Whether every atomic condition of a Boolean expression uses only
addition and subtraction. -/
def BooleanExp.usesOnlyAddSub : BooleanExp → Bool
  | .Boolean _ => true
  | .ArithmeticCondition c => c.lhs.usesOnlyAddSub
  | .And l r => l.usesOnlyAddSub && r.usesOnlyAddSub
  | .Or l r => l.usesOnlyAddSub && r.usesOnlyAddSub

/-- Pointwise soundness of a leaf environment (or of a state) for a
valuation: every recorded entry's interval contains the valuation's value
at that variable. -/
def EnvSound (ρ : String → ℤ) (env : VarMap) : Prop :=
  ∀ p ∈ env, Interval.mem p.2 (ρ p.1)

/-- Consistency of an annotated propagation tree with a valuation ρ: z is
the node's concrete value, every cached node value contains its node's
concrete value, and internal nodes use only + and −. -/
def AnnSound (ρ : String → ℤ) : ANode → ℤ → Prop
  | .int c value, z => z = c ∧ Interval.mem value z
  | .var v, z => z = ρ v
  | .bin op l r value, z =>
    Interval.mem value z ∧ ∃ a b, AnnSound ρ l a ∧ AnnSound ρ r b ∧
      ((op = Operator.Add ∧ z = a + b) ∨ (op = Operator.Sub ∧ z = a - b))

/-- The add/sub-only restriction attached to a Boolean evaluation task. -/
def BexpTask.guardOk : BexpTask → Bool
  | .eval e => e.usesOnlyAddSub
  | .andLoop l r => l.usesOnlyAddSub && r.usesOnlyAddSub
  | .orLoop l r => l.usesOnlyAddSub && r.usesOnlyAddSub

/-- Concrete satisfaction of a Boolean evaluation task. -/
def BexpTask.sat (ρ : String → ℤ) : BexpTask → Prop
  | .eval e => bsat ρ e
  | .andLoop l r => bsat ρ l ∧ bsat ρ r
  | .orLoop l r => bsat ρ l ∨ bsat ρ r

/-- Spec section 4.5, While step 1, written from the spec text: set x to
the input state and iterate `next = x ∇ (input ⊔ eval(S, refine(B, x)))` if
widening is active, else `input ⊔ eval(S, refine(B, x))`, stopping when x
equals the next iterate. -/
def spec_postfixpoint_search (m n : Int) (thresholds : List ℤ)
    (narrowing_steps liFuel loopFuel : ℕ) (guard : BooleanExp) (body : Statement)
    (input : State) : ℕ → State → ProgramInvariants → Option (State × ProgramInvariants)
  | 0, _, _ => none
  | fuel + 1, x, inv => do
    let refined ← bexp_eval m n liFuel loopFuel guard x
    let (bodySem, inv1) ←
      statement_eval_core m n thresholds narrowing_steps liFuel loopFuel fuel (.stmt body) refined inv
    let next ←
      if wideningActive m n then State.widening x (State.lub_var_wise input bodySem) thresholds
      else some (State.lub_var_wise input bodySem)
    if State.beq m n x next then some (next, inv1)
    else spec_postfixpoint_search m n thresholds narrowing_steps liFuel loopFuel guard body input fuel next inv1

/-- Spec section 4.5, While step 2, written from the spec text: up to K
iterations of `next = x △ (input ⊔ eval(S, refine(B, x)))`, stopping on
fixpoint or after K. -/
def spec_narrowing_refinement (m n : Int) (thresholds : List ℤ)
    (narrowing_steps liFuel loopFuel : ℕ) (guard : BooleanExp) (body : Statement)
    (input : State) : ℕ → ℕ → State → ProgramInvariants → Option (State × ProgramInvariants)
  | 0, _, _, _ => none
  | _ + 1, 0, x, inv => some (x, inv)
  | fuel + 1, k + 1, x, inv => do
    let refined ← bexp_eval m n liFuel loopFuel guard x
    let (bodySem, inv1) ←
      statement_eval_core m n thresholds narrowing_steps liFuel loopFuel fuel (.stmt body) refined inv
    let next ← State.narrowing x (State.lub_var_wise input bodySem)
    if State.beq m n next x then some (next, inv1)
    else spec_narrowing_refinement m n thresholds narrowing_steps liFuel loopFuel guard body input fuel k next inv1

/-- Spec section 4.5, While steps 1 to 4, written from the spec text:
post-fixpoint search from the input state, bounded narrowing, store the
result under the loop position, return the state refined by the negated
guard. -/
def spec_while_semantics (m n : Int) (thresholds : List ℤ)
    (narrowing_steps liFuel loopFuel fuel : ℕ) (pos : Position) (guard : BooleanExp)
    (body : Statement) (input : State) (inv : ProgramInvariants) :
    Option (State × ProgramInvariants) := do
  let (x, inv1) ←
    spec_postfixpoint_search m n thresholds narrowing_steps liFuel loopFuel guard body input fuel input inv
  let (x2, inv2) ←
    spec_narrowing_refinement m n thresholds narrowing_steps liFuel loopFuel guard body input fuel narrowing_steps x inv1
  let inv3 := insertInv inv2 pos x2
  let post ← bexp_eval m n liFuel loopFuel guard.negated x2
  some (post, inv3)

/-- The scenario 2 program of spec section 8: `y := 0; while x < 10 do
{ y := y + 1; x := x + 1 }`, the while at line 2 column 0; the parser
normalizes the guard `x < 10` to `(x − 10) < 0`. -/
def scenario2_prog : Statement :=
  .Composition (.Assignment "y" (.Integer 0))
    (.While ⟨2, 0⟩
      (.ArithmeticCondition ⟨.BinaryOperation (.Variable "x") .Sub (.Integer 10), .StrictlyLess⟩)
      (.Composition (.Assignment "y" (.BinaryOperation (.Variable "y") .Add (.Integer 1)))
        (.Assignment "x" (.BinaryOperation (.Variable "x") .Add (.Integer 1)))))

/-- The initial state of scenario 2: both program variables, x seeded from
the `assume x := [0,10]` line, y TOP (as Interpreter::build does). -/
def scenario2_init : State := [("x", ⟨.Num 0, .Num 10⟩), ("y", TOP)]

/-- The scenario 6 program of spec section 8: `x := 3; x := x + 10`. -/
def scenario6_prog : Statement :=
  .Composition (.Assignment "x" (.Integer 3))
    (.Assignment "x" (.BinaryOperation (.Variable "x") .Add (.Integer 10)))

section SanityChecks

example : Interval.beq (.PosInf) (.NegInf) BOTTOM BOTTOM = true := by decide

example : Interval.beq (.PosInf) (.NegInf) TOP ⟨.Num 0, .Num 1⟩ = true := by decide

example : Interval.beq (.Num (-5)) (.Num 5) ⟨.NegInf, .Num 0⟩ ⟨.Num (-6), .Num 0⟩ = true := by decide

example : Interval.beq (.Num (-5)) (.Num 5) TOP ⟨.Num (-6), .Num 6⟩ = true := by decide

example : Interval.le (.PosInf) (.NegInf) BOTTOM BOTTOM = true := by decide

example : Interval.le (.Num (-5)) (.Num 5) ⟨.NegInf, .Num 0⟩ ⟨.Num (-6), .Num 0⟩ = true := by decide

example : Interval.le (.Num (-5)) (.Num 5) ⟨.Num 1, .Num 4⟩ ⟨.Num 3, .Num 5⟩ = false := by decide

example : Interval.add (.PosInf) (.NegInf) TOP BOTTOM = some BOTTOM := by decide

example : Interval.add (.PosInf) (.NegInf) ⟨.Num 1, .Num 1⟩ ⟨.Num 2, .Num 2⟩ = some ⟨.Num 3, .Num 3⟩ := by decide

example : Interval.add (.Num (-5)) (.Num 5) ⟨.Num (-3), .Num 0⟩ ⟨.Num (-2), .Num 5⟩ = some ⟨.Num (-5), .Num 5⟩ := by decide

example : Interval.add (.NegInf) (.PosInf) ⟨.Num 0, .PosInf⟩ ⟨.Num (-200), .Num (-10)⟩ = some ⟨.Num (-200), .PosInf⟩ := by decide

example : Interval.sub (.Num (-5)) (.Num 5) ⟨.Num 5, .Num 5⟩ ⟨.Num 0, .Num 5⟩ = some ⟨.Num 0, .Num 5⟩ := by decide

example : Interval.sub (.Num (-5)) (.Num 5) ⟨.Num (-5), .Num (-5)⟩ ⟨.Num 0, .Num 1⟩ = some ⟨.Num (-6), .Num (-5)⟩ := by decide

example : Interval.sub (.NegInf) (.PosInf) ⟨.NegInf, .Num 10⟩ ⟨.NegInf, .Num (-1)⟩ = some TOP := by decide

example : Interval.mul (.PosInf) (.NegInf) ZERO TOP = some ZERO := by decide

example : Interval.mul (.PosInf) (.NegInf) ZERO BOTTOM = some BOTTOM := by decide

example : Interval.mul (.Num (-5)) (.Num 5) ⟨.Num 5, .Num 5⟩ ⟨.Num 2, .Num 2⟩ = some ⟨.Num 10, .Num 10⟩ := by decide

example : Interval.beq (.Num (-5)) (.Num 5) ⟨.Num 10, .Num 10⟩ ⟨.Num 5, .PosInf⟩ = true := by decide

example : (Interval.mul (.Num (-5)) (.Num 5) ⟨.Num 0, .Num 2⟩ ⟨.Num 0, .Num 3⟩).map
    (fun r => Interval.beq (.Num (-5)) (.Num 5) r ⟨.Num 0, .PosInf⟩) = some true := by decide

example : (Interval.mul (.Num (-5)) (.Num 5) ⟨.Num 10, .Num 10⟩ ⟨.Num (-1), .Num 1⟩).map
    (fun r => Interval.beq (.Num (-5)) (.Num 5) r TOP) = some true := by decide

example : Interval.div (.PosInf) (.NegInf) ZERO ⟨.Num 0, .PosInf⟩ = some ZERO := by simp [Interval.div.eq_def, Interval.beq, Interval.isBottom, Interval.isTop, Int.blt, Int.ble, BOTTOM, ZERO, TOP, Int.min4, Int.max4, Int.min, Int.max, Int.div, tdivZ]

example : Interval.div (.PosInf) (.NegInf) ZERO TOP = some ZERO := by simp [Interval.div.eq_def, Interval.beq, Interval.isBottom, Interval.isTop, Int.blt, Int.ble, BOTTOM, ZERO, TOP, Int.min4, Int.max4, Int.min, Int.max, Int.div, tdivZ, Int.neg, Interval.union_abstraction, Int.tdiv]

example : Interval.div (.PosInf) (.NegInf) TOP ZERO = some BOTTOM := by simp [Interval.div.eq_def, Interval.beq, Interval.isBottom, Interval.isTop, Int.blt, Int.ble, BOTTOM, ZERO, TOP, Int.min4, Int.max4, Int.min, Int.max, Int.div, tdivZ, Int.neg, Interval.union_abstraction, Int.tdiv]

example : Interval.div (.PosInf) (.NegInf) ⟨.Num 1, .Num 1⟩ ⟨.Num 2, .Num 2⟩ = some ZERO := by simp [Interval.div.eq_def, Interval.beq, Interval.isBottom, Interval.isTop, Int.blt, Int.ble, BOTTOM, ZERO, TOP, Int.min4, Int.max4, Int.min, Int.max, Int.div, tdivZ, Int.neg, Interval.union_abstraction, Int.tdiv]

example : Interval.div (.PosInf) (.NegInf) ⟨.Num 1, .Num 1⟩ ⟨.Num 1, .Num 1⟩ = some ⟨.Num 1, .Num 1⟩ := by simp [Interval.div.eq_def, Interval.beq, Interval.isBottom, Interval.isTop, Int.blt, Int.ble, BOTTOM, ZERO, TOP, Int.min4, Int.max4, Int.min, Int.max, Int.div, tdivZ, Int.neg, Interval.union_abstraction, Int.tdiv]

example : (Interval.div (.Num (-5)) (.Num 5) ⟨.Num 1, .Num 1⟩ ⟨.Num 0, .Num 3⟩).map
    (fun r => Interval.beq (.Num (-5)) (.Num 5) r ⟨.Num 0, .PosInf⟩) = some true := by simp [Interval.div.eq_def, Interval.beq, Interval.isBottom, Interval.isTop, Int.blt, Int.ble, BOTTOM, ZERO, TOP, Int.min4, Int.max4, Int.min, Int.max, Int.div, tdivZ, Int.neg, Interval.union_abstraction, Int.tdiv]

example : (Interval.div (.Num (-5)) (.Num 5) ⟨.Num (-3), .Num (-1)⟩ ⟨.Num (-3), .Num 0⟩).map
    (fun r => Interval.beq (.Num (-5)) (.Num 5) r ⟨.Num 0, .PosInf⟩) = some true := by simp [Interval.div.eq_def, Interval.beq, Interval.isBottom, Interval.isTop, Int.blt, Int.ble, BOTTOM, ZERO, TOP, Int.min4, Int.max4, Int.min, Int.max, Int.div, tdivZ, Int.neg, Interval.union_abstraction, Int.tdiv]

example : Interval.div (.NegInf) (.PosInf) ⟨.Num 10, .Num 10⟩ ⟨.Num 0, .PosInf⟩ = some ⟨.Num 0, .PosInf⟩ := by simp [Interval.div.eq_def, Interval.beq, Interval.isBottom, Interval.isTop, Int.blt, Int.ble, BOTTOM, ZERO, TOP, Int.min4, Int.max4, Int.min, Int.max, Int.div, tdivZ, Int.neg, Interval.union_abstraction, Int.tdiv]

example : AbsInt.Int.sub (.Num 0) .NegInf = some .PosInf := by decide

example : AbsInt.Int.div .NegInf (.Num 0) = some .NegInf := by decide

example : AbsInt.Int.div (.Num 10) (.Num 0) = some .PosInf := by decide

example : AbsInt.Int.div .PosInf .NegInf = some (.Num 0) := by decide

end SanityChecks

/-! Basic facts about the derived total order on extended integers. -/

theorem Int.ble_refl (a : Int) : Int.ble a a = true := by
  cases a <;> simp [Int.ble]

theorem Int.ble_trans {a b c : Int} (h1 : Int.ble a b = true) (h2 : Int.ble b c = true) :
    Int.ble a c = true := by
  cases a <;> cases b <;> cases c <;> simp_all [Int.ble] <;> omega

theorem Int.ble_of_not_ble {a b : Int} (h : Int.ble a b = false) : Int.ble b a = true := by
  cases a <;> cases b <;> simp_all [Int.ble] <;> omega

theorem Int.ble_max_iff {a b c : Int} :
    Int.ble (Int.max a b) c = true ↔ Int.ble a c = true ∧ Int.ble b c = true := by
  unfold Int.max Int.blt
  by_cases h : Int.ble a b = true
  · simp [h]
    intro hbc
    exact Int.ble_trans h hbc
  · simp [h]
    intro hac
    exact Int.ble_trans (Int.ble_of_not_ble (by simp_all)) hac

theorem Int.ble_min_iff {a b c : Int} :
    Int.ble c (Int.min a b) = true ↔ Int.ble c a = true ∧ Int.ble c b = true := by
  unfold Int.min Int.blt
  by_cases h : Int.ble a b = true
  · simp [h]
    intro hca
    exact Int.ble_trans hca h
  · simp [h]
    intro hcb
    exact Int.ble_trans hcb (Int.ble_of_not_ble (by simp_all))

theorem Int.ble_min_left {a b c : Int} (h : Int.ble a c = true) :
    Int.ble (Int.min a b) c = true := by
  unfold Int.min Int.blt
  by_cases hab : Int.ble a b = true
  · simp [hab, h]
  · simp [hab]
    exact Int.ble_trans (Int.ble_of_not_ble (by simp_all)) h

theorem Int.ble_min_right {a b c : Int} (h : Int.ble b c = true) :
    Int.ble (Int.min a b) c = true := by
  unfold Int.min Int.blt
  by_cases hab : Int.ble a b = true
  · simp [hab]
    exact Int.ble_trans hab h
  · simp [hab, h]

theorem Int.ble_max_left {a b c : Int} (h : Int.ble c a = true) :
    Int.ble c (Int.max a b) = true := by
  unfold Int.max Int.blt
  by_cases hab : Int.ble a b = true
  · simp [hab]
    exact Int.ble_trans h hab
  · simp [hab, h]

theorem Int.ble_max_right {a b c : Int} (h : Int.ble c b = true) :
    Int.ble c (Int.max a b) = true := by
  unfold Int.max Int.blt
  by_cases hab : Int.ble a b = true
  · simp [hab, h]
  · simp [hab]
    exact Int.ble_trans h (Int.ble_of_not_ble (by simp_all))

/-! Facts about interval membership, BOTTOM, TOP and the special-value
classifiers. -/

theorem Interval.not_mem_of_isBottom {v : Interval} (h : v.isBottom = true) (z : ℤ) :
    ¬ Interval.mem v z := by
  rintro ⟨h1, h2⟩
  have := Int.ble_trans h1 h2
  simp [Interval.isBottom, Int.blt, this] at h

theorem Interval.ble_of_not_isBottom {v : Interval} (h : v.isBottom = false) :
    Int.ble v.low v.upper = true := by
  simpa [Interval.isBottom, Int.blt] using h

theorem Interval.mem_TOP (z : ℤ) : Interval.mem TOP z := by
  exact ⟨rfl, rfl⟩

theorem Interval.mem_meet {a b : Interval} {z : ℤ} :
    Interval.mem (a.intersection_abstraction b) z ↔ Interval.mem a z ∧ Interval.mem b z := by
  unfold Interval.mem Interval.intersection_abstraction
  constructor
  · rintro ⟨h1, h2⟩
    rw [Int.ble_max_iff] at h1
    rw [Int.ble_min_iff] at h2
    exact ⟨⟨h1.1, h2.1⟩, ⟨h1.2, h2.2⟩⟩
  · rintro ⟨⟨ha1, ha2⟩, ⟨hb1, hb2⟩⟩
    exact ⟨Int.ble_max_iff.mpr ⟨ha1, hb1⟩, Int.ble_min_iff.mpr ⟨ha2, hb2⟩⟩

theorem Interval.mem_join_left {a b : Interval} {z : ℤ} (h : Interval.mem a z) :
    Interval.mem (a.union_abstraction b) z :=
  ⟨Int.ble_min_left h.1, Int.ble_max_left h.2⟩

theorem Interval.mem_join_right {a b : Interval} {z : ℤ} (h : Interval.mem b z) :
    Interval.mem (a.union_abstraction b) z :=
  ⟨Int.ble_min_right h.1, Int.ble_max_right h.2⟩

theorem Interval.isBottom_BOTTOM : BOTTOM.isBottom = true := by decide

theorem Interval.isTop_BOTTOM (m n : Int) : Interval.isTop m n BOTTOM = false := by
  unfold Interval.isTop BOTTOM
  cases m <;> cases n <;> simp [Int.blt, Int.ble]

theorem Interval.isBottom_TOP : TOP.isBottom = false := by decide

theorem Interval.isTop_TOP (m n : Int) : Interval.isTop m n TOP = true := by
  unfold Interval.isTop TOP
  by_cases h : Int.blt n m = true <;> simp [h, Int.blt, Int.ble]

theorem Interval.beq_BOTTOM (m n : Int) (s : Interval) :
    Interval.beq m n s BOTTOM = s.isBottom := by
  unfold Interval.beq
  rw [Interval.isBottom_BOTTOM, Interval.isTop_BOTTOM]
  cases h : s.isBottom <;> simp [h]

theorem Interval.beq_TOP (m n : Int) (s : Interval) :
    Interval.beq m n s TOP = Interval.isTop m n s := by
  unfold Interval.beq
  rw [Interval.isBottom_TOP, Interval.isTop_TOP]
  cases hb : s.isBottom <;> cases ht : Interval.isTop m n s <;> simp [hb, ht]

theorem State.keys_setKey (s : State) (v : String) (x : Interval) :
    State.keys (State.setKey s v x) = State.keys s := by
  induction s with
  | nil => rfl
  | cons p rest ih =>
    by_cases h : p.1 = v <;> simp [State.setKey, h, State.keys] <;>
      simpa [State.keys] using ih

/-- Claim C7: extended-integer division is claimed total except declared
domain errors, with (±∞)/y for finite nonzero y giving a signed infinity.
The code satisfies every other clause of the claim (x/±∞ = 0 for finite x,
x/0 by sign of x, 0/0 = 0) but panics with "Unhandled div pattern" on an
infinity divided by a finite nonzero value (none in the embedding), which
is the shape the claim and spec section 4.1 declare total. -/
theorem C7_extended_div_code_bug :
    Int.div (.Num 7) .PosInf = some (.Num 0) ∧
    Int.div (.Num (-7)) .NegInf = some (.Num 0) ∧
    Int.div (.Num 3) (.Num 0) = some .PosInf ∧
    Int.div (.Num (-3)) (.Num 0) = some .NegInf ∧
    Int.div (.Num 0) (.Num 0) = some (.Num 0) ∧
    Int.div .PosInf (.Num 2) = none ∧
    Int.div .NegInf (.Num 2) = none := by
  decide

/-- Claim C10: State::update never inserts a new key: updating an absent
variable with a non-bottom value leaves the state unchanged, updating any
variable with a bottom value collapses the state to bottom, and the key set
of a non-bottom update is preserved. -/
theorem C10_state_update_invariant (m n : Int) (s : State) (v : String) (x : Interval) :
    (Interval.beq m n x BOTTOM = true → State.update m n s v x = State.bottom) ∧
    (Interval.beq m n x BOTTOM = false → State.contains s v = false →
      State.update m n s v x = s) ∧
    (Interval.beq m n x BOTTOM = false →
      State.keys (State.update m n s v x) = State.keys s) := by
  refine ⟨fun h => ?_, fun h hc => ?_, fun h => ?_⟩
  · simp [State.update, h, State.contains, State.lookup, State.bottom]
  · simp [State.update, h, hc]
  · unfold State.update
    simp only [h, if_false]
    by_cases hc : State.contains s v = true <;> simp [hc, State.keys_setKey]

/-- Witness for claim C10 at concrete inputs: updating the absent key y
with a non-bottom value is the identity, and updating the present key x
with BOTTOM collapses the state. -/
theorem C10_state_update_invariant_witness :
    State.update .NegInf .PosInf [("x", TOP)] "y" ⟨.Num 1, .Num 1⟩ = [("x", TOP)] ∧
    State.update .NegInf .PosInf [("x", TOP)] "x" BOTTOM = State.bottom :=
  ⟨(C10_state_update_invariant .NegInf .PosInf [("x", TOP)] "y" ⟨.Num 1, .Num 1⟩).2.1
      (by decide) (by decide),
   (C10_state_update_invariant .NegInf .PosInf [("x", TOP)] "x" BOTTOM).1 (by decide)⟩

/-- Claim C9, counterexample: under M = 0, N = 5 the program
`x := 3; x := x + 10` ends with the raw value [13,13], which the reporting
layer renders as "[5,inf]" (the lower endpoint 13 > N clamps to N = 5), not
as the claimed "[0,inf]". -/
theorem C9_saturated_final_counterexample :
    interpret (.Num 0) (.Num 5) (Statement.extract_constant scenario6_prog) 0 20 20 30
      scenario6_prog [("x", TOP)] =
      some ([("x", ⟨.Num 13, .Num 13⟩)], [(Position.sentinel, [("x", ⟨.Num 13, .Num 13⟩)])]) ∧
    Interval.render (.Num 0) (.Num 5) ⟨.Num 13, .Num 13⟩ = "[5,inf]" ∧
    "[5,inf]" ≠ "[0,inf]" := by
  refine ⟨by decide, by decide, by decide⟩

/-- Claim C9 as amended: under M = 0, N = 5 the program
`x := 3; x := x + 10` yields the raw final state x to [13,13] (no
normalization is applied to stored values), reported as x to [5, inf]:
the value 13 exceeds N = 5, so the upper endpoint saturates to +∞ and the
lower endpoint clamps to N = 5. -/
theorem C9_saturated_final_amended :
    interpret (.Num 0) (.Num 5) (Statement.extract_constant scenario6_prog) 0 20 20 30
      scenario6_prog [("x", TOP)] =
      some ([("x", ⟨.Num 13, .Num 13⟩)], [(Position.sentinel, [("x", ⟨.Num 13, .Num 13⟩)])]) ∧
    Interval.render (.Num 0) (.Num 5) ⟨.Num 13, .Num 13⟩ = "[5,inf]" := by
  refine ⟨by decide, by decide⟩

/-- Claim C8, counterexample: the default-configuration analysis of
scenario 2 (NARROWING_STEPS = 0, default bounds) computes the loop
invariant x to [0,10], y to [0,+∞] and the final state x to [10,10],
y to [0,+∞]; both differ (under the state equality of the code) from the
claimed y to [0,10]. -/
theorem C8_scenario2_counterexample :
    interpret .NegInf .PosInf (Statement.extract_constant scenario2_prog) 0 20 20 30
      scenario2_prog scenario2_init =
      some ([("x", ⟨.Num 10, .Num 10⟩), ("y", ⟨.Num 0, .PosInf⟩)],
        [(⟨2, 0⟩, [("x", ⟨.Num 0, .Num 10⟩), ("y", ⟨.Num 0, .PosInf⟩)]),
         (Position.sentinel, [("x", ⟨.Num 10, .Num 10⟩), ("y", ⟨.Num 0, .PosInf⟩)])]) ∧
    State.beq .NegInf .PosInf
      [("x", ⟨.Num 0, .Num 10⟩), ("y", ⟨.Num 0, .PosInf⟩)]
      [("x", ⟨.Num 0, .Num 10⟩), ("y", ⟨.Num 0, .Num 10⟩)] = false ∧
    State.beq .NegInf .PosInf
      [("x", ⟨.Num 10, .Num 10⟩), ("y", ⟨.Num 0, .PosInf⟩)]
      [("x", ⟨.Num 10, .Num 10⟩), ("y", ⟨.Num 0, .Num 10⟩)] = false := by
  refine ⟨by decide, by decide, by decide⟩

/-- Claim C8 as amended: the analysis of scenario 2 yields the loop
invariant x to [0,10], y to [0,+∞] and the final state x to [10,10],
y to [0,+∞]; the claimed bound y to [0,10] is not computed, with
NARROWING_STEPS = 0 (the default) or 3 alike, because narrowing only
replaces infinite endpoints of the left operand and the rejoined body
semantics keeps y's upper endpoint at +∞. -/
theorem C8_scenario2_amended :
    interpret .NegInf .PosInf (Statement.extract_constant scenario2_prog) 0 20 20 30
      scenario2_prog scenario2_init =
      some ([("x", ⟨.Num 10, .Num 10⟩), ("y", ⟨.Num 0, .PosInf⟩)],
        [(⟨2, 0⟩, [("x", ⟨.Num 0, .Num 10⟩), ("y", ⟨.Num 0, .PosInf⟩)]),
         (Position.sentinel, [("x", ⟨.Num 10, .Num 10⟩), ("y", ⟨.Num 0, .PosInf⟩)])]) ∧
    interpret .NegInf .PosInf (Statement.extract_constant scenario2_prog) 3 20 20 30
      scenario2_prog scenario2_init =
      some ([("x", ⟨.Num 10, .Num 10⟩), ("y", ⟨.Num 0, .PosInf⟩)],
        [(⟨2, 0⟩, [("x", ⟨.Num 0, .Num 10⟩), ("y", ⟨.Num 0, .PosInf⟩)]),
         (Position.sentinel, [("x", ⟨.Num 10, .Num 10⟩), ("y", ⟨.Num 0, .PosInf⟩)])]) := by
  refine ⟨by decide, by decide⟩

theorem Int.ble_any_PosInf (x : Int) : Int.ble x .PosInf = true := by
  cases x <;> rfl

theorem Int.ble_NegInf_any (x : Int) : Int.ble .NegInf x = true := by
  cases x <;> rfl

theorem Int.ble_NegInf_right_iff (x : Int) : Int.ble x .NegInf = true ↔ x = .NegInf := by
  cases x <;> simp [Int.ble]

theorem Int.ble_PosInf_left_iff (x : Int) : Int.ble .PosInf x = true ↔ x = .PosInf := by
  cases x <;> simp [Int.ble]

theorem Int.blt_NegInf_right (x : Int) : Int.blt x .NegInf = false := by
  simp [Int.blt, Int.ble_NegInf_any]

theorem Int.blt_PosInf_left (x : Int) : Int.blt .PosInf x = false := by
  simp [Int.blt, Int.ble_any_PosInf]

theorem Interval.isTop_default_iff (v : Interval) :
    Interval.isTop .NegInf .PosInf v = true ↔ v.low = .NegInf ∧ v.upper = .PosInf := by
  unfold Interval.isTop
  rw [if_neg (by simp [Int.blt, Int.ble])]
  simp [Int.blt_NegInf_right, Int.blt_PosInf_left]

theorem Interval.isTop_default_of_isBottom {v : Interval} (h : v.isBottom = true) :
    Interval.isTop .NegInf .PosInf v = false := by
  by_contra hc
  have h2 := (Interval.isTop_default_iff v).mp (by simpa using hc)
  simp [Interval.isBottom, h2.1, h2.2, Int.blt, Int.ble] at h

theorem Interval.not_mem_low_PosInf {v : Interval} (h : v.low = .PosInf) (z : ℤ) :
    ¬ Interval.mem v z := by
  rintro ⟨h1, _⟩
  rw [h] at h1
  simp [Int.ble] at h1

theorem Interval.not_mem_upper_NegInf {v : Interval} (h : v.upper = .NegInf) (z : ℤ) :
    ¬ Interval.mem v z := by
  rintro ⟨_, h2⟩
  rw [h] at h2
  simp [Int.ble] at h2

/-- Under the default bounds, equal values (per the code's PartialEq) have
the same concretization. -/
theorem Interval.beq_default_gamma {v w : Interval}
    (h : Interval.beq .NegInf .PosInf v w = true) (z : ℤ) :
    Interval.mem v z ↔ Interval.mem w z := by
  unfold Interval.beq at h
  by_cases hbv : v.isBottom = true
  · by_cases hbw : w.isBottom = true
    · simp [Interval.not_mem_of_isBottom hbv, Interval.not_mem_of_isBottom hbw]
    · rw [if_neg, if_pos] at h
      · exact absurd h (by simp)
      · simp [hbv, Bool.eq_false_iff.mpr hbw]
      · simp [Bool.eq_false_iff.mpr hbw, Interval.isTop_default_of_isBottom hbv]
  · by_cases hbw : w.isBottom = true
    · rw [if_neg, if_pos] at h
      · exact absurd h (by simp)
      · simp [hbw, Bool.eq_false_iff.mpr hbv]
      · simp [Bool.eq_false_iff.mpr hbv, Interval.isTop_default_of_isBottom hbw]
    · by_cases htv : Interval.isTop .NegInf .PosInf v = true
      · by_cases htw : Interval.isTop .NegInf .PosInf w = true
        · obtain ⟨hv1, hv2⟩ := (Interval.isTop_default_iff v).mp htv
          obtain ⟨hw1, hw2⟩ := (Interval.isTop_default_iff w).mp htw
          simp [Interval.mem, hv1, hv2, hw1, hw2, Int.ble_NegInf_any, Int.ble_any_PosInf]
        · rw [if_neg, if_neg, if_pos] at h
          · exact absurd h (by simp)
          · simp [htv]
          · simp [Bool.eq_false_iff.mpr hbv, Bool.eq_false_iff.mpr hbw]
          · simp [htv, Bool.eq_false_iff.mpr hbv, Bool.eq_false_iff.mpr hbw,
              Bool.eq_false_iff.mpr htw]
      · by_cases htw : Interval.isTop .NegInf .PosInf w = true
        · rw [if_neg, if_neg, if_pos] at h
          · exact absurd h (by simp)
          · simp [htw]
          · simp [Bool.eq_false_iff.mpr hbv, Bool.eq_false_iff.mpr hbw]
          · simp [htw, Bool.eq_false_iff.mpr hbv, Bool.eq_false_iff.mpr hbw,
              Bool.eq_false_iff.mpr htv]
        · rw [if_neg, if_neg, if_neg, if_neg] at h
          · have hc : (v.low = w.low ∧ v.upper = w.upper) ∨
                (v.upper = .NegInf ∧ w.upper = .NegInf) ∨
                (v.low = .PosInf ∧ w.low = .PosInf) := by
              by_cases h5 : ((v.low = w.low && v.upper = w.upper)
                   || (Int.ble v.upper .NegInf && Int.ble w.upper .NegInf)
                   || (Int.ble .PosInf v.low && Int.ble .PosInf w.low)
                   || (Int.blt v.low .NegInf && Int.blt w.low .NegInf && v.upper = w.upper)
                   || (v.low = w.low && Int.blt .PosInf v.upper && Int.blt .PosInf w.upper)) = true
              · simp only [Bool.or_eq_true, Bool.and_eq_true, Int.blt_NegInf_right,
                  Int.blt_PosInf_left, Int.ble_NegInf_right_iff, Int.ble_PosInf_left_iff,
                  Bool.false_eq_true, false_and, and_false, or_false, false_or,
                  decide_eq_true_eq] at h5
                tauto
              · rw [if_neg (by simpa using h5)] at h
                exact absurd h (by simp)
            rcases hc with ⟨h1, h2⟩ | ⟨h1, h2⟩ | ⟨h1, h2⟩
            · unfold Interval.mem
              rw [h1, h2]
            · simp [Interval.not_mem_upper_NegInf h1, Interval.not_mem_upper_NegInf h2]
            · simp [Interval.not_mem_low_PosInf h1, Interval.not_mem_low_PosInf h2]
          · simp [Int.blt, Int.ble]
          · simp [htv, htw]
          · simp [Bool.eq_false_iff.mpr hbv, Bool.eq_false_iff.mpr hbw]
          · simp [htv, htw, Bool.eq_false_iff.mpr hbv, Bool.eq_false_iff.mpr hbw]

theorem Int.ble_of_blt {a b : Int} (h : Int.blt a b = true) : Int.ble a b = true := by
  unfold Int.blt at h
  exact Int.ble_of_not_ble (by simpa using h)

/-- Claim C4, counterexample: under the default bounds, [1,2] is not ⊑
[1,3] although γ([1,2]) ⊆ γ([1,3]); since [1,2] ⊔ [1,3] = [1,3] and
[1,3] ⊓ [1,2] = [1,2], the same pair also refutes v ⊑ v ⊔ w and
v ⊓ w ⊑ v. -/
theorem C4_order_counterexample :
    Interval.le .NegInf .PosInf ⟨.Num 1, .Num 2⟩ ⟨.Num 1, .Num 3⟩ = false ∧
    Interval.gamma ⟨.Num 1, .Num 2⟩ ⊆ Interval.gamma ⟨.Num 1, .Num 3⟩ ∧
    Interval.union_abstraction ⟨.Num 1, .Num 2⟩ ⟨.Num 1, .Num 3⟩ = ⟨.Num 1, .Num 3⟩ ∧
    Interval.intersection_abstraction ⟨.Num 1, .Num 3⟩ ⟨.Num 1, .Num 2⟩ = ⟨.Num 1, .Num 2⟩ := by
  refine ⟨by decide, ?_, by decide, by decide⟩
  rintro z ⟨h1, h2⟩
  refine ⟨h1, ?_⟩
  simp [Int.ble] at h2 ⊢
  omega

/-- Claim C4 as amended: under the default bounds the implemented order
implies inclusion of concretizations, but it is strictly finer than
inclusion (v ⊑ w needs equality under the code's PartialEq, BOTTOM versus
non-BOTTOM, non-TOP versus TOP, or strict inclusion of both raw
endpoints); hence the claimed iff fails, and with it the laws v ⊑ v ⊔ w
and v ⊓ w ⊑ v, at v = [1,2], w = [1,3]. -/
theorem C4_order_amended (v w : Interval)
    (h : Interval.le .NegInf .PosInf v w = true) :
    Interval.gamma v ⊆ Interval.gamma w := by
  intro z hz
  unfold Interval.le Interval.pcmp at h
  by_cases hbeq : Interval.beq .NegInf .PosInf v w = true
  · exact (Interval.beq_default_gamma hbeq z).mp hz
  · rw [if_neg hbeq] at h
    by_cases hC : ((Interval.beq .NegInf .PosInf v BOTTOM && !Interval.beq .NegInf .PosInf w BOTTOM)
        || (!Interval.beq .NegInf .PosInf v TOP && Interval.beq .NegInf .PosInf w TOP)
        || (Int.blt w.low v.low && Int.blt v.upper w.upper)) = true
    · cases hvb : Interval.beq .NegInf .PosInf v BOTTOM with
      | true =>
        rw [Interval.beq_BOTTOM] at hvb
        exact absurd hz (Interval.not_mem_of_isBottom hvb z)
      | false =>
        cases hwt : Interval.beq .NegInf .PosInf w TOP with
        | true =>
          rw [Interval.beq_TOP] at hwt
          obtain ⟨hw1, hw2⟩ := (Interval.isTop_default_iff w).mp hwt
          exact ⟨by rw [hw1]; exact Int.ble_NegInf_any _,
                 by rw [hw2]; exact Int.ble_any_PosInf _⟩
        | false =>
          simp only [hvb, hwt, Bool.false_and, Bool.and_false, Bool.false_or,
            Bool.or_eq_true, Bool.and_eq_true] at hC
          obtain ⟨hl, hu⟩ := hC
          exact ⟨Int.ble_trans (Int.ble_of_blt hl) hz.1,
                 Int.ble_trans hz.2 (Int.ble_of_blt hu)⟩
    · rw [if_neg hC] at h
      simp at h

/-- Witness for the amended claim C4 at v = [0,1], w = [−1,2]. -/
theorem C4_order_amended_witness :
    Interval.le .NegInf .PosInf ⟨.Num 0, .Num 1⟩ ⟨.Num (-1), .Num 2⟩ = true ∧
    Interval.gamma ⟨.Num 0, .Num 1⟩ ⊆ Interval.gamma ⟨.Num (-1), .Num 2⟩ :=
  ⟨by decide, C4_order_amended ⟨.Num 0, .Num 1⟩ ⟨.Num (-1), .Num 2⟩ (by decide)⟩

theorem Interval.gamma_normalize_default (v : Interval) :
    Interval.gamma (Interval.normalize .NegInf .PosInf v) = Interval.gamma v := by
  unfold Interval.normalize
  by_cases hb : v.isBottom = true
  · rw [if_pos hb]
    ext z
    simp only [Interval.gamma, Set.mem_setOf_eq]
    exact ⟨fun h => absurd h (Interval.not_mem_of_isBottom Interval.isBottom_BOTTOM z),
           fun h => absurd h (Interval.not_mem_of_isBottom hb z)⟩
  · rw [if_neg hb, if_neg (by simp [Int.blt, Int.ble])]
    rw [Int.blt_NegInf_right, Int.blt_PosInf_left, Int.blt_PosInf_left, Int.blt_NegInf_right]
    rfl

theorem Interval.beq_of_eq_endpoints (m n : Int) {v w : Interval}
    (h1 : v.low = w.low) (h2 : v.upper = w.upper) : Interval.beq m n v w = true := by
  have hvw : v = w := by
    cases v
    cases w
    simp_all
  subst hvw
  unfold Interval.beq
  by_cases hb : v.isBottom = true
  · simp [hb]
  · by_cases ht : Interval.isTop m n v = true <;> simp [hb, ht]

theorem Interval.gamma_low_eq {v w : Interval} (hv1 : v.low ≠ .PosInf) (hv2 : v.upper ≠ .NegInf)
    (hw1 : w.low ≠ .PosInf) (hw2 : w.upper ≠ .NegInf)
    (hbv : v.isBottom = false) (hbw : w.isBottom = false)
    (hmem : ∀ z, Interval.mem v z ↔ Interval.mem w z) : v.low = w.low := by
  have hble_v := Interval.ble_of_not_isBottom hbv
  have hble_w := Interval.ble_of_not_isBottom hbw
  cases hl : v.low with
  | PosInf => exact absurd hl hv1
  | NegInf =>
    cases hl2 : w.low with
    | NegInf => rfl
    | PosInf => exact absurd hl2 hw1
    | Num c =>
      exfalso
      cases hu : v.upper with
      | NegInf => exact absurd hu hv2
      | Num u =>
        have hm : Interval.mem v (min (c - 1) u) := by
          refine ⟨by rw [hl]; exact Int.ble_NegInf_any _, ?_⟩
          rw [hu]
          simp [Int.ble]
        obtain ⟨h21, _⟩ := (hmem _).mp hm
        rw [hl2] at h21
        simp [Int.ble] at h21
      | PosInf =>
        have hm : Interval.mem v (c - 1) := by
          refine ⟨by rw [hl]; exact Int.ble_NegInf_any _, by rw [hu]; exact Int.ble_any_PosInf _⟩
        obtain ⟨h21, _⟩ := (hmem _).mp hm
        rw [hl2] at h21
        simp [Int.ble] at h21
  | Num a =>
    cases hl2 : w.low with
    | PosInf => exact absurd hl2 hw1
    | NegInf =>
      exfalso
      cases hu : w.upper with
      | NegInf => exact absurd hu hw2
      | Num u =>
        have hm : Interval.mem w (min (a - 1) u) := by
          refine ⟨by rw [hl2]; exact Int.ble_NegInf_any _, ?_⟩
          rw [hu]
          simp [Int.ble]
        obtain ⟨h21, _⟩ := (hmem _).mpr hm
        rw [hl] at h21
        simp [Int.ble] at h21
      | PosInf =>
        have hm : Interval.mem w (a - 1) := by
          refine ⟨by rw [hl2]; exact Int.ble_NegInf_any _, by rw [hu]; exact Int.ble_any_PosInf _⟩
        obtain ⟨h21, _⟩ := (hmem _).mpr hm
        rw [hl] at h21
        simp [Int.ble] at h21
    | Num c =>
      have hma : Interval.mem v a := by
        refine ⟨by rw [hl]; simp [Int.ble], ?_⟩
        rw [hl] at hble_v
        exact hble_v
      have hmc : Interval.mem w c := by
        refine ⟨by rw [hl2]; simp [Int.ble], ?_⟩
        rw [hl2] at hble_w
        exact hble_w
      obtain ⟨e1, _⟩ := (hmem a).mp hma
      obtain ⟨e2, _⟩ := (hmem c).mpr hmc
      rw [hl2] at e1
      rw [hl] at e2
      simp [Int.ble] at e1 e2
      congr 1
      omega

theorem Interval.gamma_upper_eq {v w : Interval} (hv1 : v.low ≠ .PosInf) (hv2 : v.upper ≠ .NegInf)
    (hw1 : w.low ≠ .PosInf) (hw2 : w.upper ≠ .NegInf)
    (hbv : v.isBottom = false) (hbw : w.isBottom = false)
    (hmem : ∀ z, Interval.mem v z ↔ Interval.mem w z) : v.upper = w.upper := by
  have hble_v := Interval.ble_of_not_isBottom hbv
  have hble_w := Interval.ble_of_not_isBottom hbw
  cases hu : v.upper with
  | NegInf => exact absurd hu hv2
  | PosInf =>
    cases hu2 : w.upper with
    | PosInf => rfl
    | NegInf => exact absurd hu2 hw2
    | Num d =>
      exfalso
      cases hl : v.low with
      | PosInf => exact absurd hl hv1
      | Num a =>
        have hm : Interval.mem v (Max.max (d + 1) a) := by
          refine ⟨?_, by rw [hu]; exact Int.ble_any_PosInf _⟩
          rw [hl]
          simp [Int.ble]
        obtain ⟨_, h22⟩ := (hmem _).mp hm
        rw [hu2] at h22
        simp [Int.ble] at h22
      | NegInf =>
        have hm : Interval.mem v (d + 1) := by
          refine ⟨by rw [hl]; exact Int.ble_NegInf_any _, by rw [hu]; exact Int.ble_any_PosInf _⟩
        obtain ⟨_, h22⟩ := (hmem _).mp hm
        rw [hu2] at h22
        simp [Int.ble] at h22
  | Num b =>
    cases hu2 : w.upper with
    | NegInf => exact absurd hu2 hw2
    | PosInf =>
      exfalso
      cases hl : w.low with
      | PosInf => exact absurd hl hw1
      | Num c =>
        have hm : Interval.mem w (Max.max (b + 1) c) := by
          refine ⟨?_, by rw [hu2]; exact Int.ble_any_PosInf _⟩
          rw [hl]
          simp [Int.ble]
        obtain ⟨_, h22⟩ := (hmem _).mpr hm
        rw [hu] at h22
        simp [Int.ble] at h22
      | NegInf =>
        have hm : Interval.mem w (b + 1) := by
          refine ⟨by rw [hl]; exact Int.ble_NegInf_any _, by rw [hu2]; exact Int.ble_any_PosInf _⟩
        obtain ⟨_, h22⟩ := (hmem _).mpr hm
        rw [hu] at h22
        simp [Int.ble] at h22
    | Num d =>
      have hmb : Interval.mem v b := by
        refine ⟨?_, by rw [hu]; simp [Int.ble]⟩
        rw [hu] at hble_v
        exact hble_v
      have hmd : Interval.mem w d := by
        refine ⟨?_, by rw [hu2]; simp [Int.ble]⟩
        rw [hu2] at hble_w
        exact hble_w
      obtain ⟨_, e1⟩ := (hmem b).mp hmb
      obtain ⟨_, e2⟩ := (hmem d).mpr hmd
      rw [hu2] at e1
      rw [hu] at e2
      simp [Int.ble] at e1 e2
      congr 1
      omega

/-- Claim C5, counterexample: under M = −5, N = 5 the code deems [−6,−5]
equal to [−5,−5] (both upper endpoints are ≤ M), yet after the spec's
normal-form step they concretize to different sets: −6 lies in the first
(normalized to [−∞,−5]) but not in the second (its own normal form). -/
theorem C5_equality_counterexample :
    Interval.beq (.Num (-5)) (.Num 5) ⟨.Num (-6), .Num (-5)⟩ ⟨.Num (-5), .Num (-5)⟩ = true ∧
    Interval.mem (Interval.normalize (.Num (-5)) (.Num 5) ⟨.Num (-6), .Num (-5)⟩) (-6) ∧
    ¬ Interval.mem (Interval.normalize (.Num (-5)) (.Num 5) ⟨.Num (-5), .Num (-5)⟩) (-6) := by
  refine ⟨by decide, by decide, by decide⟩

/-- Claim C5 as amended: any two BOTTOM representations are equal and any
two TOP representations are equal; and under the DEFAULT bounds equality
coincides with equal concretization after normalization for constructible
values (raw low ≠ +∞ and raw upper ≠ −∞, or a bottom pair — everything the
interval constructors can produce).  Under coarsened bounds the claim
fails: the code compares raw endpoints through special clauses and equates
values whose normalized concretizations differ, e.g. [−6,−5] = [−5,−5]
under (−5, 5). -/
theorem C5_equality_amended :
    (∀ (m n : Int) (v w : Interval), v.isBottom = true → w.isBottom = true →
      Interval.beq m n v w = true) ∧
    (∀ (m n : Int) (v w : Interval), Interval.isTop m n v = true →
      Interval.isTop m n w = true → Interval.beq m n v w = true) ∧
    (∀ v w : Interval, v.wfB → w.wfB →
      (Interval.beq .NegInf .PosInf v w = true ↔
        Interval.gamma (Interval.normalize .NegInf .PosInf v) =
          Interval.gamma (Interval.normalize .NegInf .PosInf w))) := by
  refine ⟨fun m n v w h1 h2 => by simp [Interval.beq, h1, h2],
          fun m n v w h1 h2 => by simp [Interval.beq, h1, h2],
          fun v w hv hw => ?_⟩
  rw [Interval.gamma_normalize_default, Interval.gamma_normalize_default]
  constructor
  · intro h
    ext z
    simp only [Interval.gamma, Set.mem_setOf_eq]
    exact Interval.beq_default_gamma h z
  · intro h
    have hmem : ∀ z, Interval.mem v z ↔ Interval.mem w z := by
      intro z
      have := Set.ext_iff.mp h z
      simpa [Interval.gamma] using this
    by_cases hbv : v.isBottom = true
    · by_cases hbw : w.isBottom = true
      · simp [Interval.beq, hbv, hbw]
      · exfalso
        rcases hw with ⟨hw1, hw2⟩ | hw2
        · obtain ⟨z, hz⟩ : ∃ z, Interval.mem w z := by
            cases hl : w.low with
            | PosInf => exact absurd hl hw1
            | NegInf =>
              cases hu : w.upper with
              | NegInf => exact absurd hu hw2
              | Num u => exact ⟨u, by rw [hl]; exact Int.ble_NegInf_any _, by rw [hu]; simp [Int.ble]⟩
              | PosInf => exact ⟨0, by rw [hl]; exact Int.ble_NegInf_any _, by rw [hu]; exact Int.ble_any_PosInf _⟩
            | Num a =>
              refine ⟨a, by rw [hl]; simp [Int.ble], ?_⟩
              have := Interval.ble_of_not_isBottom (Bool.eq_false_iff.mpr hbw)
              rw [hl] at this
              exact this
          exact Interval.not_mem_of_isBottom hbv z ((hmem z).mpr hz)
        · exact hbw hw2
    · have hbv2 : v.isBottom = false := Bool.eq_false_iff.mpr hbv
      have hbw : w.isBottom = false := by
        by_contra hc
        have hbw2 : w.isBottom = true := by simpa using hc
        rcases hv with ⟨hv1, hv2⟩ | hv2
        · obtain ⟨z, hz⟩ : ∃ z, Interval.mem v z := by
            cases hl : v.low with
            | PosInf => exact absurd hl hv1
            | NegInf =>
              cases hu : v.upper with
              | NegInf => exact absurd hu hv2
              | Num u => exact ⟨u, by rw [hl]; exact Int.ble_NegInf_any _, by rw [hu]; simp [Int.ble]⟩
              | PosInf => exact ⟨0, by rw [hl]; exact Int.ble_NegInf_any _, by rw [hu]; exact Int.ble_any_PosInf _⟩
            | Num a =>
              refine ⟨a, by rw [hl]; simp [Int.ble], ?_⟩
              have := Interval.ble_of_not_isBottom hbv2
              rw [hl] at this
              exact this
          exact Interval.not_mem_of_isBottom hbw2 z ((hmem z).mp hz)
        · exact absurd hv2 (by simpa using hbv)
      rcases hv with ⟨hv1, hv2⟩ | hv2
      · rcases hw with ⟨hw1, hw2⟩ | hw2
        · exact Interval.beq_of_eq_endpoints .NegInf .PosInf
            (Interval.gamma_low_eq hv1 hv2 hw1 hw2 hbv2 hbw hmem)
            (Interval.gamma_upper_eq hv1 hv2 hw1 hw2 hbv2 hbw hmem)
        · exact absurd hw2 (by simp [hbw])
      · exact absurd hv2 (by simp [hbv2])

/-- Witness for the amended claim C5: two distinct BOTTOM representations
compare equal under the constant-domain bounds, two TOP representations
compare equal, and under the default bounds equality of [1,2] with itself
transfers to its normalized concretization. -/
theorem C5_equality_amended_witness :
    Interval.beq .PosInf .NegInf ⟨.Num 1, .Num 0⟩ ⟨.Num 7, .Num 3⟩ = true ∧
    Interval.beq .PosInf .NegInf ⟨.Num 0, .Num 1⟩ ⟨.Num 2, .Num 9⟩ = true ∧
    Interval.gamma (Interval.normalize .NegInf .PosInf ⟨.Num 1, .Num 2⟩) =
      Interval.gamma (Interval.normalize .NegInf .PosInf ⟨.Num 1, .Num 2⟩) :=
  ⟨C5_equality_amended.1 .PosInf .NegInf ⟨.Num 1, .Num 0⟩ ⟨.Num 7, .Num 3⟩ (by decide) (by decide),
   C5_equality_amended.2.1 .PosInf .NegInf ⟨.Num 0, .Num 1⟩ ⟨.Num 2, .Num 9⟩ (by decide) (by decide),
   (C5_equality_amended.2.2 ⟨.Num 1, .Num 2⟩ ⟨.Num 1, .Num 2⟩ (by decide) (by decide)).mp (by decide)⟩

theorem Int.add_eq (a b : Int) : Int.add a b =
    match a, b with
    | .NegInf, .PosInf => none
    | .PosInf, .NegInf => none
    | .NegInf, _ => some .NegInf
    | _, .NegInf => some .NegInf
    | .PosInf, _ => some .PosInf
    | _, .PosInf => some .PosInf
    | .Num x, .Num y => some (.Num (x + y)) := by
  cases a <;> cases b <;> rfl

theorem Int.sub_eq (a b : Int) : Int.sub a b =
    match a, b with
    | .NegInf, .NegInf => none
    | .PosInf, .PosInf => none
    | .NegInf, _ => some .NegInf
    | _, .NegInf => some .PosInf
    | .PosInf, _ => some .PosInf
    | _, .PosInf => some .NegInf
    | .Num x, .Num y => some (.Num (x - y)) := by
  cases a <;> cases b <;> rfl

theorem Int.add_mono {a b c d x y : Int} (hab : Int.ble a b = true) (hcd : Int.ble c d = true)
    (hx : Int.add a c = some x) (hy : Int.add b d = some y) : Int.ble x y = true := by
  cases a <;> cases b <;> cases c <;> cases d <;>
    simp only [Int.add_eq] at hx hy <;>
    first
    | exact Option.noConfusion hx
    | exact Option.noConfusion hy
    | (obtain rfl := Option.some.inj hx
       obtain rfl := Option.some.inj hy
       simp_all [Int.ble]
       try omega)

theorem Int.sub_mono {a b c d x y : Int} (hab : Int.ble a b = true) (hcd : Int.ble c d = true)
    (hx : Int.sub a d = some x) (hy : Int.sub b c = some y) : Int.ble x y = true := by
  cases a <;> cases b <;> cases c <;> cases d <;>
    simp only [Int.sub_eq] at hx hy <;>
    first
    | exact Option.noConfusion hx
    | exact Option.noConfusion hy
    | (obtain rfl := Option.some.inj hx
       obtain rfl := Option.some.inj hy
       simp_all [Int.ble]
       try omega)

theorem Int.ble_min4_max4 (a b c d : Int) :
    Int.ble (Int.min4 a b c d) (Int.max4 a b c d) = true := by
  have h1 : Int.ble (Int.min4 a b c d) a = true := by
    unfold Int.min4
    exact Int.ble_min_left (Int.ble_min_left (Int.ble_min_left (Int.ble_refl a)))
  have h2 : Int.ble a (Int.max4 a b c d) = true := by
    unfold Int.max4
    exact Int.ble_max_left (Int.ble_max_left (Int.ble_max_left (Int.ble_refl a)))
  exact Int.ble_trans h1 h2

theorem Int.min_PosInf_left (l : Int) : Int.min .PosInf l = l := by
  cases l <;> simp [Int.min, Int.blt, Int.ble]

theorem Int.max_NegInf_left (u : Int) : Int.max .NegInf u = u := by
  cases u <;> simp [Int.max, Int.blt, Int.ble]

theorem Interval.union_BOTTOM_left (x : Interval) : Interval.union_abstraction BOTTOM x = x := by
  unfold Interval.union_abstraction BOTTOM
  rw [Int.min_PosInf_left, Int.max_NegInf_left]

theorem Int.min_PosInf_right (l : Int) : Int.min l .PosInf = l := by
  cases l <;> simp [Int.min, Int.blt, Int.ble]

theorem Int.max_NegInf_right (u : Int) : Int.max u .NegInf = u := by
  cases u <;> simp [Int.max, Int.blt, Int.ble]

theorem Interval.union_BOTTOM_right (x : Interval) : Interval.union_abstraction x BOTTOM = x := by
  unfold Interval.union_abstraction BOTTOM
  rw [Int.min_PosInf_right, Int.max_NegInf_right]

theorem Interval.union_wf {s r : Interval} (hs : Int.ble s.low s.upper = true)
    (hr : Int.ble r.low r.upper = true) :
    Int.ble (s.union_abstraction r).low (s.union_abstraction r).upper = true := by
  unfold Interval.union_abstraction
  exact Int.ble_trans (Int.ble_min_left hs) (Int.ble_max_left (Int.ble_refl _))

theorem Interval.union_shape {x y : Interval}
    (hx : x = BOTTOM ∨ Int.ble x.low x.upper = true)
    (hy : y = BOTTOM ∨ Int.ble y.low y.upper = true) :
    x.union_abstraction y = BOTTOM ∨
      Int.ble (x.union_abstraction y).low (x.union_abstraction y).upper = true := by
  rcases hx with hx | hx
  · subst hx
    rw [Interval.union_BOTTOM_left]
    exact hy
  · rcases hy with hy | hy
    · subst hy
      rw [Interval.union_BOTTOM_right]
      exact Or.inr hx
    · exact Or.inr (Interval.union_wf hx hy)

theorem Interval.add_shape (m n : Int) (s r t : Interval)
    (h : Interval.add m n s r = some t) :
    t = BOTTOM ∨ Int.ble t.low t.upper = true := by
  unfold Interval.add at h
  split at h
  · exact Or.inl (by simpa using h.symm)
  · split at h
    · obtain rfl := Option.some.inj h
      right
      rfl
    · rename_i hb ht
      simp only [Bool.or_eq_true, not_or] at hb
      obtain ⟨hbs, hbr⟩ := hb
      rw [Interval.beq_BOTTOM] at hbs hbr
      simp only [bind, Option.bind_eq_some] at h
      obtain ⟨l, hl, h⟩ := h
      obtain ⟨u, hu, h⟩ := h
      obtain rfl := Option.some.inj h
      right
      exact Int.add_mono (Interval.ble_of_not_isBottom (Bool.eq_false_iff.mpr hbs))
        (Interval.ble_of_not_isBottom (Bool.eq_false_iff.mpr hbr)) hl hu

theorem Interval.sub_shape (m n : Int) (s r t : Interval)
    (h : Interval.sub m n s r = some t) :
    t = BOTTOM ∨ Int.ble t.low t.upper = true := by
  unfold Interval.sub at h
  split at h
  · exact Or.inl (by simpa using h.symm)
  · split at h
    · obtain rfl := Option.some.inj h
      right
      rfl
    · rename_i hb ht
      simp only [Bool.or_eq_true, not_or] at hb
      obtain ⟨hbs, hbr⟩ := hb
      rw [Interval.beq_BOTTOM] at hbs hbr
      simp only [bind, Option.bind_eq_some] at h
      obtain ⟨l, hl, h⟩ := h
      obtain ⟨u, hu, h⟩ := h
      obtain rfl := Option.some.inj h
      right
      exact Int.sub_mono (Interval.ble_of_not_isBottom (Bool.eq_false_iff.mpr hbs))
        (Interval.ble_of_not_isBottom (Bool.eq_false_iff.mpr hbr)) hl hu

theorem Interval.mul_shape (m n : Int) (s r t : Interval)
    (h : Interval.mul m n s r = some t) :
    t = BOTTOM ∨ Int.ble t.low t.upper = true := by
  unfold Interval.mul at h
  split at h
  · exact Or.inl (by simpa using h.symm)
  · split at h
    · obtain rfl := Option.some.inj h
      right
      rfl
    · split at h
      · obtain rfl := Option.some.inj h
        right
        rfl
      · simp only [bind, Option.bind_eq_some] at h
        obtain ⟨p1, h1, h⟩ := h
        obtain ⟨p2, h2, h⟩ := h
        obtain ⟨p3, h3, h⟩ := h
        obtain ⟨p4, h4, h⟩ := h
        obtain rfl := Option.some.inj h
        right
        exact Int.ble_min4_max4 p1 p2 p3 p4

theorem Interval.div_shape_fuel : ∀ (k : ℕ) (m n : Int) (s r t : Interval),
    Interval.divRank r ≤ k → Interval.div m n s r = some t →
    t = BOTTOM ∨ Int.ble t.low t.upper = true := by
  intro k
  induction k with
  | zero =>
    intro m n s r t hk h
    rw [Interval.div.eq_def] at h
    split at h
    · exact Or.inl (by simpa using h.symm)
    · split at h
      · exact Or.inl (by simpa using h.symm)
      · split at h
        · simp only [bind, Option.bind_eq_some] at h
          obtain ⟨q1, h1, h⟩ := h
          obtain ⟨q2, h2, h⟩ := h
          obtain ⟨q3, h3, h⟩ := h
          obtain ⟨q4, h4, h⟩ := h
          obtain rfl := Option.some.inj h
          right
          exact Int.ble_min4_max4 q1 q2 q3 q4
        · exfalso
          rename_i h1
          unfold Interval.divRank at hk
          rw [if_neg h1] at hk
          split at hk <;> omega
  | succ k ih =>
    intro m n s r t hk h
    rw [Interval.div.eq_def] at h
    split at h
    · exact Or.inl (by simpa using h.symm)
    · split at h
      · exact Or.inl (by simpa using h.symm)
      · split at h
        · simp only [bind, Option.bind_eq_some] at h
          obtain ⟨q1, h1, h⟩ := h
          obtain ⟨q2, h2, h⟩ := h
          obtain ⟨q3, h3, h⟩ := h
          obtain ⟨q4, h4, h⟩ := h
          obtain rfl := Option.some.inj h
          right
          exact Int.ble_min4_max4 q1 q2 q3 q4
        · rename_i h1
          split at h
          · rename_i h2
            have hlt := Interval.divRank_negate r (by simpa using h1) h2
            exact ih m n _ _ t (by omega) h
          · rename_i h2
            simp only [bind, Option.bind_eq_some] at h
            obtain ⟨x, hx, h⟩ := h
            obtain ⟨y, hy, h⟩ := h
            have hltx := Interval.divRank_split_left r (by simpa using h1) (by simpa using h2)
            have hlty := Interval.divRank_split_right r (by simpa using h1) (by simpa using h2)
            have sx := ih m n _ _ x (by omega) hx
            have sy := ih m n _ _ y (by omega) hy
            obtain rfl := Option.some.inj h
            exact Interval.union_shape sx sy

/-- Claim C6, counterexample: under M = −5, N = 5 the exported addition
returns [5,5] + [1,1] = [6,6] with the raw endpoint 6 outside
{−∞} ∪ [M,N] ∪ {+∞}; no normal-form step runs after operations. -/
theorem C6_operation_range_counterexample :
    Interval.add (.Num (-5)) (.Num 5) ⟨.Num 5, .Num 5⟩ ⟨.Num 1, .Num 1⟩ =
      some ⟨.Num 6, .Num 6⟩ ∧
    ¬ inBoundRange (.Num (-5)) (.Num 5) (.Num 6) := by
  refine ⟨by decide, by decide⟩

/-- Claim C6 as amended: the result of each exported arithmetic operation
is the canonical BOTTOM or has ordered raw endpoints ℓ ≤ u; join preserves
ordered endpoints and meet concretizes exactly to the intersection (a meet
of disjoint operands is a raw pair with ℓ > u, a BOTTOM representation).
The raw endpoints do NOT lie in {−∞} ∪ [M,N] ∪ {+∞} in general: the code
has no normal-form step after operations, and the bounds are only consulted
by equality, comparison and printing. -/
theorem C6_operation_shape_amended :
    (∀ (m n : Int) (s r t : Interval), Interval.add m n s r = some t →
      t = BOTTOM ∨ Int.ble t.low t.upper = true) ∧
    (∀ (m n : Int) (s r t : Interval), Interval.sub m n s r = some t →
      t = BOTTOM ∨ Int.ble t.low t.upper = true) ∧
    (∀ (m n : Int) (s r t : Interval), Interval.mul m n s r = some t →
      t = BOTTOM ∨ Int.ble t.low t.upper = true) ∧
    (∀ (m n : Int) (s r t : Interval), Interval.div m n s r = some t →
      t = BOTTOM ∨ Int.ble t.low t.upper = true) ∧
    (∀ s r : Interval, Int.ble s.low s.upper = true → Int.ble r.low r.upper = true →
      Int.ble (s.union_abstraction r).low (s.union_abstraction r).upper = true) ∧
    (∀ (s r : Interval) (z : ℤ),
      Interval.mem (s.intersection_abstraction r) z ↔ Interval.mem s z ∧ Interval.mem r z) :=
  ⟨Interval.add_shape, Interval.sub_shape, Interval.mul_shape,
   fun m n s r t h => Interval.div_shape_fuel (Interval.divRank r) m n s r t le_rfl h,
   fun _ _ hs hr => Interval.union_wf hs hr,
   fun _ _ _ => Interval.mem_meet⟩

/-- Witness for the amended claim C6 at concrete operands: an addition
result with ordered endpoints, a division returning the canonical BOTTOM,
a join of ordered operands, and the meet concretization at a point. -/
theorem C6_operation_shape_amended_witness :
    (⟨.Num 6, .Num 6⟩ = BOTTOM ∨ Int.ble (Int.Num 6) (Int.Num 6) = true) ∧
    (BOTTOM = BOTTOM ∨ Int.ble BOTTOM.low BOTTOM.upper = true) ∧
    Int.ble (Interval.union_abstraction ⟨.Num 0, .Num 1⟩ ⟨.Num 4, .Num 9⟩).low
      (Interval.union_abstraction ⟨.Num 0, .Num 1⟩ ⟨.Num 4, .Num 9⟩).upper = true ∧
    (Interval.mem (Interval.intersection_abstraction ⟨.Num 0, .Num 5⟩ ⟨.Num 3, .Num 9⟩) 4 ↔
      Interval.mem ⟨.Num 0, .Num 5⟩ 4 ∧ Interval.mem ⟨.Num 3, .Num 9⟩ 4) :=
  ⟨C6_operation_shape_amended.1 (.Num (-5)) (.Num 5) ⟨.Num 5, .Num 5⟩ ⟨.Num 1, .Num 1⟩
      ⟨.Num 6, .Num 6⟩ (by decide),
   C6_operation_shape_amended.2.2.2.1 .NegInf .PosInf TOP ZERO BOTTOM
      (by rw [Interval.div.eq_def]; decide),
   C6_operation_shape_amended.2.2.2.2.1 ⟨.Num 0, .Num 1⟩ ⟨.Num 4, .Num 9⟩ (by decide) (by decide),
   C6_operation_shape_amended.2.2.2.2.2 ⟨.Num 0, .Num 5⟩ ⟨.Num 3, .Num 9⟩ 4⟩

theorem Interval.add_sound (m n : Int) {s r t : Interval} (h : Interval.add m n s r = some t)
    {x y : ℤ} (hx : Interval.mem s x) (hy : Interval.mem r y) : Interval.mem t (x + y) := by
  unfold Interval.add at h
  split at h
  · rename_i hb
    rw [Bool.or_eq_true] at hb
    rw [Interval.beq_BOTTOM, Interval.beq_BOTTOM] at hb
    rcases hb with hb | hb
    · exact absurd hx (Interval.not_mem_of_isBottom hb x)
    · exact absurd hy (Interval.not_mem_of_isBottom hb y)
  · split at h
    · obtain rfl := Option.some.inj h
      exact Interval.mem_TOP _
    · simp only [bind, Option.bind_eq_some] at h
      obtain ⟨l, hl, h⟩ := h
      obtain ⟨u, hu, h⟩ := h
      obtain rfl := Option.some.inj h
      exact ⟨Int.add_mono hx.1 hy.1 hl rfl, Int.add_mono hx.2 hy.2 rfl hu⟩

theorem Interval.sub_sound (m n : Int) {s r t : Interval} (h : Interval.sub m n s r = some t)
    {x y : ℤ} (hx : Interval.mem s x) (hy : Interval.mem r y) : Interval.mem t (x - y) := by
  unfold Interval.sub at h
  split at h
  · rename_i hb
    rw [Bool.or_eq_true] at hb
    rw [Interval.beq_BOTTOM, Interval.beq_BOTTOM] at hb
    rcases hb with hb | hb
    · exact absurd hx (Interval.not_mem_of_isBottom hb x)
    · exact absurd hy (Interval.not_mem_of_isBottom hb y)
  · split at h
    · obtain rfl := Option.some.inj h
      exact Interval.mem_TOP _
    · simp only [bind, Option.bind_eq_some] at h
      obtain ⟨l, hl, h⟩ := h
      obtain ⟨u, hu, h⟩ := h
      obtain rfl := Option.some.inj h
      exact ⟨Int.sub_mono hx.1 hy.2 hl rfl, Int.sub_mono hx.2 hy.1 rfl hu⟩

/-- Claim C3, counterexample: for op = ·, L = [5,5], R = [0,0] and
Y = [0,0] ⊒ L · R (the forward product is [0,0] itself), the backward
transformer divides by the ZERO interval and refines both operands to
BOTTOM, so the concrete pair (5, 0) — which satisfies 5 · 0 = 0 ∈ γ(Y),
5 ∈ γ(L), 0 ∈ γ(R) — is excluded: the claimed containment fails. -/
theorem C3_backward_mul_counterexample :
    Interval.mul .NegInf .PosInf ⟨.Num 5, .Num 5⟩ ZERO = some ZERO ∧
    Interval.le .NegInf .PosInf ZERO ZERO = true ∧
    backward_arithmetic_operator .NegInf .PosInf ⟨.Num 5, .Num 5⟩ ZERO ZERO .Mul =
      some (BOTTOM, BOTTOM) ∧
    Interval.mem ⟨.Num 5, .Num 5⟩ 5 ∧ Interval.mem ZERO 0 ∧ Interval.mem ZERO (5 * 0) ∧
    ¬ Interval.mem BOTTOM 5 := by
  refine ⟨by decide, by decide, ?_, by decide, by decide, by decide, by decide⟩
  simp [backward_arithmetic_operator, Interval.div.eq_def, Interval.beq, Interval.isBottom,
    Interval.isTop, Int.blt, Int.ble, BOTTOM, ZERO, TOP, Int.min4, Int.max4, Int.min, Int.max,
    Int.div, tdivZ, Int.neg, Interval.union_abstraction, Interval.intersection_abstraction]

/-- Claim C3 as amended: for the additive operators op ∈ {+, −} the
backward transformer is sound for any result value Y (the hypothesis
Y ⊒ forward(L,R,op) is not even needed): the refined operands shrink in
concretization, γ(L′) ⊆ γ(L) and γ(R′) ⊆ γ(R), and every concrete pair
(ℓ, r) ∈ γ(L) × γ(R) with ℓ op r ∈ γ(Y) survives in γ(L′) × γ(R′).  The
implemented ⊑ itself need not relate L′ to L (see claim C4), and for
op = · the containment fails (division by the ZERO result interval). -/
theorem C3_backward_addsub_amended (m n : Int) (L R Y L2 R2 : Interval) (op : Operator)
    (hop : op = Operator.Add ∨ op = Operator.Sub)
    (h : backward_arithmetic_operator m n L R Y op = some (L2, R2)) :
    Interval.gamma L2 ⊆ Interval.gamma L ∧ Interval.gamma R2 ⊆ Interval.gamma R ∧
    ∀ l r : ℤ, Interval.mem L l → Interval.mem R r →
      Interval.mem Y (if op = Operator.Add then l + r else l - r) →
      Interval.mem L2 l ∧ Interval.mem R2 r := by
  rcases hop with hop | hop <;> subst hop
  · unfold backward_arithmetic_operator at h
    simp only [bind, Option.bind_eq_some] at h
    obtain ⟨d1, hd1, h⟩ := h
    obtain ⟨d2, hd2, h⟩ := h
    obtain ⟨rfl, rfl⟩ := Prod.mk.injEq .. ▸ Option.some.inj h
    refine ⟨fun z hz => (Interval.mem_meet.mp hz).1, fun z hz => (Interval.mem_meet.mp hz).1, ?_⟩
    intro l r hl hr hy
    simp only [if_pos rfl] at hy
    constructor
    · refine Interval.mem_meet.mpr ⟨hl, ?_⟩
      have := Interval.sub_sound m n hd1 hy hr
      simpa using this
    · refine Interval.mem_meet.mpr ⟨hr, ?_⟩
      have := Interval.sub_sound m n hd2 hy hl
      simpa using this
  · unfold backward_arithmetic_operator at h
    simp only [bind, Option.bind_eq_some] at h
    obtain ⟨a1, ha1, h⟩ := h
    obtain ⟨a2, ha2, h⟩ := h
    obtain ⟨rfl, rfl⟩ := Prod.mk.injEq .. ▸ Option.some.inj h
    refine ⟨fun z hz => (Interval.mem_meet.mp hz).1, fun z hz => (Interval.mem_meet.mp hz).1, ?_⟩
    intro l r hl hr hy
    rw [if_neg (by decide : ¬ Operator.Sub = Operator.Add)] at hy
    constructor
    · refine Interval.mem_meet.mpr ⟨hl, ?_⟩
      have := Interval.add_sound m n ha1 hy hr
      simpa using this
    · refine Interval.mem_meet.mpr ⟨hr, ?_⟩
      have := Interval.sub_sound m n ha2 hl hy
      simpa using this

/-- Witness for the amended claim C3 at op = +, L = [0,2], R = [1,1],
Y = [1,2]: the refinement is (L′, R′) = ([0,1], [1,1]) and the pair
(1, 1) with 1 + 1 = 2 ∈ γ(Y) survives. -/
theorem C3_backward_addsub_amended_witness :
    backward_arithmetic_operator .NegInf .PosInf ⟨.Num 0, .Num 2⟩ ⟨.Num 1, .Num 1⟩
      ⟨.Num 1, .Num 2⟩ .Add = some (⟨.Num 0, .Num 1⟩, ⟨.Num 1, .Num 1⟩) ∧
    (Interval.mem ⟨.Num 0, .Num 1⟩ 1 ∧ Interval.mem ⟨.Num 1, .Num 1⟩ 1) :=
  ⟨by decide,
   (C3_backward_addsub_amended .NegInf .PosInf ⟨.Num 0, .Num 2⟩ ⟨.Num 1, .Num 1⟩
      ⟨.Num 1, .Num 2⟩ ⟨.Num 0, .Num 1⟩ ⟨.Num 1, .Num 1⟩ .Add (Or.inl rfl)
      (by decide)).2.2 1 1 (by decide) (by decide) (by decide)⟩

theorem widen_task_eq_spec (m n : Int) (th : List ℤ) (ns liF loF : ℕ)
    (g : BooleanExp) (b : Statement) (input : State) :
    ∀ (fuel : ℕ) (x : State) (inv : ProgramInvariants),
      statement_eval_core m n th ns liF loF fuel (.widen g b input) x inv =
        spec_postfixpoint_search m n th ns liF loF g b input fuel x inv := by
  intro fuel
  induction fuel with
  | zero => intro x inv; rfl
  | succ fuel ih =>
    intro x inv
    simp only [statement_eval_core, spec_postfixpoint_search]
    congr 1
    funext gx
    congr 1
    funext p
    obtain ⟨bodySem, inv1⟩ := p
    by_cases hw : wideningActive m n = true
    · simp only [if_pos hw]
      congr 1
      funext next
      by_cases hbeq : State.beq m n x next = true
      · simp [hbeq]
      · simp only [if_neg hbeq]
        exact ih next inv1
    · simp only [if_neg hw]
      congr 1
      funext next
      by_cases hbeq : State.beq m n x next = true
      · simp [hbeq]
      · simp only [if_neg hbeq]
        exact ih next inv1

theorem narrow_task_eq_spec (m n : Int) (th : List ℤ) (ns liF loF : ℕ)
    (g : BooleanExp) (b : Statement) (input : State) :
    ∀ (fuel k : ℕ) (x : State) (inv : ProgramInvariants),
      statement_eval_core m n th ns liF loF fuel (.narrow k g b input) x inv =
        spec_narrowing_refinement m n th ns liF loF g b input fuel k x inv := by
  intro fuel
  induction fuel with
  | zero => intro k x inv; rfl
  | succ fuel ih =>
    intro k x inv
    cases k with
    | zero => rfl
    | succ k =>
      simp only [statement_eval_core, spec_narrowing_refinement]
      congr 1
      funext gx
      congr 1
      funext p
      obtain ⟨bodySem, inv1⟩ := p
      congr 1
      funext next
      by_cases hbeq : State.beq m n next x = true
      · simp [hbeq]
      · simp only [if_neg hbeq]
        exact ih k next inv1

/-- Claim C1: on a non-bottom input state the While arm of the statement
evaluator is exactly the loop of spec section 4.5: iterate
x to x ∇ (input ⊔ eval(body, refine(guard, x))) when the domain provides a
widening operator and x to input ⊔ eval(body, refine(guard, x)) otherwise,
stopping exactly when x equals the next iterate; then at most
NARROWING_STEPS iterations of x to x △ (input ⊔ eval(body, refine(guard,
x))) stopping early on fixpoint; the resulting x is stored in the
invariant map under the loop's position and refine(¬guard, x) is
returned. -/
theorem C1_while_arm_is_spec_loop (m n : Int) (th : List ℤ) (ns liF loF fuel : ℕ)
    (pos : Position) (guard : BooleanExp) (body : Statement) (s : State)
    (inv : ProgramInvariants) (hs : s ≠ State.bottom) :
    statement_eval_core m n th ns liF loF (fuel + 1) (.stmt (.While pos guard body)) s inv =
      spec_while_semantics m n th ns liF loF fuel pos guard body s inv := by
  simp only [statement_eval_core, spec_while_semantics, decide_eq_true_eq, if_neg hs]
  rw [widen_task_eq_spec]
  congr 1
  funext p
  obtain ⟨x, inv1⟩ := p
  simp only [narrow_task_eq_spec]

/-- Witness for claim C1 at a concrete loop: `while false do skip` from
the non-bottom state x to TOP; both the evaluator and the spec loop return
the input state with the invariant stored. -/
theorem C1_while_arm_is_spec_loop_witness :
    statement_eval_core .NegInf .PosInf [] 0 5 5 4
        (.stmt (.While ⟨1, 0⟩ (.Boolean false) .Skip)) [("x", TOP)] [] =
      spec_while_semantics .NegInf .PosInf [] 0 5 5 3 ⟨1, 0⟩ (.Boolean false) .Skip
        [("x", TOP)] [] :=
  C1_while_arm_is_spec_loop .NegInf .PosInf [] 0 5 5 3 ⟨1, 0⟩ (.Boolean false) .Skip
    [("x", TOP)] [] (by decide)


theorem Interval.mem_constant (c : ℤ) :
    Interval.mem (Interval.constant_abstraction c) c := by
  constructor <;> simp [Interval.constant_abstraction, Int.ble]

theorem State.lookup_sound {ρ : String → ℤ} {s : State} (hs : EnvSound ρ s)
    {v : String} {w : Interval} (h : State.lookup s v = some w) :
    Interval.mem w (ρ v) := by
  induction s with
  | nil => exact Option.noConfusion h
  | cons p rest ih =>
    unfold State.lookup at h
    by_cases hp : p.1 = v
    · rw [if_pos hp] at h
      obtain rfl := Option.some.inj h
      have := hs p (List.mem_cons_self ..)
      rwa [hp] at this
    · rw [if_neg hp] at h
      exact ih (fun q hq => hs q (List.mem_cons_of_mem _ hq)) h

theorem State.mem_setKey {s : State} {v : String} {x : Interval}
    {q : String × Interval} (h : q ∈ State.setKey s v x) : q = (v, x) ∨ q ∈ s := by
  induction s with
  | nil => exact absurd h (List.not_mem_nil _)
  | cons p rest ih =>
    unfold State.setKey at h
    by_cases hp : p.1 = v
    · rw [if_pos hp] at h
      rcases List.mem_cons.mp h with h | h
      · exact Or.inl h
      · exact Or.inr (List.mem_cons_of_mem _ h)
    · rw [if_neg hp] at h
      rcases List.mem_cons.mp h with h | h
      · exact Or.inr (h ▸ List.mem_cons_self ..)
      · rcases ih h with h | h
        · exact Or.inl h
        · exact Or.inr (List.mem_cons_of_mem _ h)

theorem State.setKey_sound {ρ : String → ℤ} {s : State} (hs : EnvSound ρ s)
    {v : String} {x : Interval} (hx : Interval.mem x (ρ v)) :
    EnvSound ρ (State.setKey s v x) := by
  intro q hq
  rcases State.mem_setKey hq with rfl | hq
  · exact hx
  · exact hs q hq

theorem State.setKey_ne_nil {s : State} (h : s ≠ []) (v : String) (x : Interval) :
    State.setKey s v x ≠ [] := by
  cases s with
  | nil => exact absurd rfl h
  | cons p rest =>
    unfold State.setKey
    by_cases hp : p.1 = v
    · rw [if_pos hp]; exact List.cons_ne_nil _ _
    · rw [if_neg hp]; exact List.cons_ne_nil _ _

theorem State.lookup_isSome_of_mem_keys {s : State} {v : String}
    (h : v ∈ State.keys s) : ∃ w, State.lookup s v = some w := by
  induction s with
  | nil => exact absurd h (List.not_mem_nil _)
  | cons p rest ih =>
    unfold State.lookup
    by_cases hp : p.1 = v
    · exact ⟨p.2, by rw [if_pos hp]⟩
    · rcases List.mem_cons.mp h with h | h
      · exact absurd h.symm hp
      · obtain ⟨w, hw⟩ := ih h
        exact ⟨w, by rw [if_neg hp]; exact hw⟩

theorem State.mem_setKey_eq_of_key {s : State} {v : String} {x : Interval}
    {q : String × Interval} (hnd : (State.keys s).Nodup)
    (hq : q ∈ State.setKey s v x) (hk : q.1 = v) (hv : v ∈ State.keys s) :
    q = (v, x) := by
  induction s with
  | nil => exact absurd hv (List.not_mem_nil _)
  | cons p rest ih =>
    unfold State.setKey at hq
    have hnd2 := List.nodup_cons.mp hnd
    by_cases hp : p.1 = v
    · rw [if_pos hp] at hq
      rcases List.mem_cons.mp hq with hq | hq
      · exact hq
      · have hmm : q.1 ∈ List.map Prod.fst rest := List.mem_map_of_mem Prod.fst hq
        rw [hk, ← hp] at hmm
        exact absurd hmm hnd2.1
    · rw [if_neg hp] at hq
      rcases List.mem_cons.mp hq with hq | hq
      · exact absurd (hq ▸ hk) hp
      · rcases List.mem_cons.mp hv with hv | hv
        · exact absurd hv.symm hp
        · exact ih hnd2.2 hq hv

theorem State.update_sound {ρ : String → ℤ} (m n : Int) {st : State}
    (hst : EnvSound ρ st) {v : String} {x : Interval} (hx : Interval.mem x (ρ v)) :
    EnvSound ρ (State.update m n st v x) ∧ (st ≠ [] → State.update m n st v x ≠ []) := by
  have hbx : Interval.beq m n x BOTTOM = false := by
    rw [Interval.beq_BOTTOM]
    cases hib : x.isBottom
    · rfl
    · exact absurd hx (Interval.not_mem_of_isBottom hib _)
  unfold State.update
  simp only [hbx, Bool.false_eq_true, if_false]
  by_cases hc : State.contains st v = true
  · rw [if_pos hc]
    exact ⟨State.setKey_sound hst hx, fun h => State.setKey_ne_nil h v x⟩
  · rw [if_neg hc]
    exact ⟨hst, fun h => h⟩

theorem State.update_keys (m n : Int) (st : State) (v : String) (x : Interval) :
    State.update m n st v x = [] ∨
      State.keys (State.update m n st v x) = State.keys st := by
  unfold State.update
  cases hbeq : Interval.beq m n x BOTTOM
  · simp only [Bool.false_eq_true, if_false]
    by_cases hc : State.contains st v = true
    · rw [if_pos hc]
      exact Or.inr (State.keys_setKey ..)
    · rw [if_neg hc]
      exact Or.inr rfl
  · simp only [if_true]
    left
    simp [State.contains, State.lookup, State.bottom]

theorem fold_update_sound {ρ : String → ℤ} (m n : Int)
    (f : State → String × Interval → State)
    (hf : ∀ st p, f st p = State.update m n st p.1 p.2) :
    ∀ (env : VarMap) (st : State), EnvSound ρ env → State.gammaMem ρ st →
    State.gammaMem ρ (env.foldl f st) := by
  intro env
  induction env with
  | nil => exact fun st _ h => h
  | cons p rest ih =>
    intro st hes hst
    rw [List.foldl_cons, hf st p]
    have hp := hes p (List.mem_cons_self ..)
    have hu := State.update_sound m n hst.2 hp
    exact ih _ (fun q hq => hes q (List.mem_cons_of_mem _ hq)) ⟨hu.2 hst.1, hu.1⟩

theorem fold_update_keys (m n : Int) (f : State → String × Interval → State)
    (hf : ∀ st p, f st p = State.update m n st p.1 p.2) :
    ∀ (env : VarMap) (st : State),
    env.foldl f st = [] ∨ State.keys (env.foldl f st) = State.keys st := by
  intro env
  induction env with
  | nil => exact fun st => Or.inr rfl
  | cons p rest ih =>
    intro st
    rw [List.foldl_cons, hf st p]
    rcases State.update_keys m n st p.1 p.2 with hb | hk
    · rw [hb]
      rcases ih [] with h | h
      · exact Or.inl h
      · left
        cases hrest : rest.foldl f [] with
        | nil => rfl
        | cons q qs => rw [hrest] at h; exact absurd h (by simp [State.keys])
    · rcases ih (State.update m n st p.1 p.2) with h | h
      · exact Or.inl h
      · exact Or.inr (h.trans hk)

theorem fold_keys_preserved (f : State → String × Interval → State)
    (hfs : ∀ r (p : String × Interval), p.1 ∈ State.keys r →
      State.keys (f r p) = State.keys r) :
    ∀ (b r : State), (∀ p ∈ b, p.1 ∈ State.keys r) →
    State.keys (b.foldl f r) = State.keys r := by
  intro b
  induction b with
  | nil => exact fun r _ => rfl
  | cons p rest ih =>
    intro r hks
    rw [List.foldl_cons]
    have hstep := hfs r p (hks p (List.mem_cons_self ..))
    have := ih (f r p) (fun q hq => by
      rw [hstep]; exact hks q (List.mem_cons_of_mem _ hq))
    exact this.trans hstep

theorem fold_meet_sound {ρ : String → ℤ} (f : State → String × Interval → State)
    (hfs : ∀ r (p : String × Interval) w, State.lookup r p.1 = some w →
      f r p = State.setKey r p.1 (w.intersection_abstraction p.2))
    (hfn : ∀ r (p : String × Interval), State.lookup r p.1 = none → f r p = r ++ [p]) :
    ∀ (b r : State), State.gammaMem ρ r → EnvSound ρ b →
    State.gammaMem ρ (b.foldl f r) := by
  intro b
  induction b with
  | nil => exact fun r hr _ => hr
  | cons p rest ih =>
    intro r hr hbs
    have hp : Interval.mem p.2 (ρ p.1) := hbs p (List.mem_cons_self ..)
    have hstep : State.gammaMem ρ (f r p) := by
      cases hlk : State.lookup r p.1 with
      | some old =>
        rw [hfs r p old hlk]
        exact ⟨State.setKey_ne_nil hr.1 _ _,
               State.setKey_sound hr.2 (Interval.mem_meet.mpr ⟨State.lookup_sound hr.2 hlk, hp⟩)⟩
      | none =>
        rw [hfn r p hlk]
        refine ⟨by simp [State.bottom], ?_⟩
        intro q hq
        rcases List.mem_append.mp hq with hq | hq
        · exact hr.2 q hq
        · obtain rfl := List.mem_singleton.mp hq
          exact hp
    rw [List.foldl_cons]
    exact ih (f r p) hstep (fun q hq => hbs q (List.mem_cons_of_mem _ hq))

theorem fold_join_sound_left {ρ : String → ℤ} (f : State → String × Interval → State)
    (hfs : ∀ r (p : String × Interval) w, State.lookup r p.1 = some w →
      f r p = State.setKey r p.1 (w.union_abstraction p.2)) :
    ∀ (b r : State), State.gammaMem ρ r → (∀ p ∈ b, p.1 ∈ State.keys r) →
    State.gammaMem ρ (b.foldl f r) ∧ State.keys (b.foldl f r) = State.keys r := by
  intro b
  induction b with
  | nil => exact fun r hr _ => ⟨hr, rfl⟩
  | cons p rest ih =>
    intro r hr hks
    obtain ⟨w, hw⟩ := State.lookup_isSome_of_mem_keys (hks p (List.mem_cons_self ..))
    have hfe := hfs r p w hw
    have hkeys : State.keys (f r p) = State.keys r := by
      rw [hfe]; exact State.keys_setKey ..
    have hstep : State.gammaMem ρ (f r p) := by
      rw [hfe]
      exact ⟨State.setKey_ne_nil hr.1 _ _,
             State.setKey_sound hr.2 (Interval.mem_join_left (State.lookup_sound hr.2 hw))⟩
    rw [List.foldl_cons]
    have := ih (f r p) hstep (fun q hq => by
      rw [hkeys]; exact hks q (List.mem_cons_of_mem _ hq))
    exact ⟨this.1, this.2.trans hkeys⟩

theorem fold_join_sound_right {ρ : String → ℤ} (f : State → String × Interval → State)
    (hfs : ∀ r (p : String × Interval) w, State.lookup r p.1 = some w →
      f r p = State.setKey r p.1 (w.union_abstraction p.2)) :
    ∀ (b r : State), r ≠ [] → (State.keys r).Nodup →
    (∀ p ∈ b, p.1 ∈ State.keys r) → EnvSound ρ b →
    (∀ q ∈ r, Interval.mem q.2 (ρ q.1) ∨ q.1 ∈ State.keys b) →
    State.gammaMem ρ (b.foldl f r) := by
  intro b
  induction b with
  | nil =>
    intro r hne hnd _ _ hinv
    refine ⟨hne, fun q hq => ?_⟩
    rcases hinv q hq with h | h
    · exact h
    · exact absurd h (List.not_mem_nil _)
  | cons p rest ih =>
    intro r hne hnd hks hbs hinv
    have hpk : p.1 ∈ State.keys r := hks p (List.mem_cons_self ..)
    obtain ⟨w, hw⟩ := State.lookup_isSome_of_mem_keys hpk
    have hfe := hfs r p w hw
    have hkeys : State.keys (f r p) = State.keys r := by
      rw [hfe]; exact State.keys_setKey ..
    have hp : Interval.mem p.2 (ρ p.1) := hbs p (List.mem_cons_self ..)
    rw [List.foldl_cons]
    refine ih (f r p) ?_ ?_ ?_ ?_ ?_
    · rw [hfe]; exact State.setKey_ne_nil hne _ _
    · rw [hkeys]; exact hnd
    · intro q hq; rw [hkeys]; exact hks q (List.mem_cons_of_mem _ hq)
    · exact fun q hq => hbs q (List.mem_cons_of_mem _ hq)
    · intro q hq
      rw [hfe] at hq
      rcases State.mem_setKey hq with rfl | hqr
      · exact Or.inl (Interval.mem_join_right hp)
      · rcases hinv q hqr with hm | hkq
        · exact Or.inl hm
        · rcases (by simpa [State.keys] using hkq :
              q.1 = p.1 ∨ q.1 ∈ State.keys rest) with heq | hrest
          · left
            have hqe := State.mem_setKey_eq_of_key hnd hq heq hpk
            rw [hqe]
            exact Interval.mem_join_right hp
          · exact Or.inr hrest

theorem State.glb_sound {ρ : String → ℤ} {a b cur : State} (ha : State.gammaMem ρ a)
    (hb : State.gammaMem ρ b) (h : State.glb_var_wise a b = some cur) :
    State.gammaMem ρ cur := by
  unfold State.glb_var_wise at h
  rw [if_neg (show ¬(a = [] ∨ b = []) from fun hor => Or.elim hor ha.1 hb.1)] at h
  by_cases hg : ((State.keys a).all fun v => State.contains b v) = true
  · rw [if_pos hg] at h
    obtain rfl := Option.some.inj h
    exact fold_meet_sound _ (fun r p w hw => by simp only [hw])
      (fun r p hw => by simp only [hw]) b a ha hb.2
  · rw [if_neg hg] at h
    exact Option.noConfusion h

theorem State.lub_sound_left {ρ : String → ℤ} {a b : State} (ha : State.gammaMem ρ a)
    (hk : b = State.bottom ∨ State.keys b = State.keys a) :
    State.gammaMem ρ (State.lub_var_wise a b) := by
  unfold State.lub_var_wise
  rw [if_neg (show ¬(a = []) from ha.1)]
  rcases hk with rfl | hk
  · rw [if_pos (show State.bottom = ([] : State) from rfl)]; exact ha
  · by_cases hb : b = []
    · rw [if_pos hb]; exact ha
    · rw [if_neg hb]
      exact (fold_join_sound_left _ (fun r p w hw => by simp only [hw]) b a ha
        (fun p hp => by rw [← hk]; exact List.mem_map_of_mem _ hp)).1

theorem State.lub_sound_right {ρ : String → ℤ} {a b : State} (hb : State.gammaMem ρ b)
    (hnd : (State.keys a).Nodup)
    (hk : a = State.bottom ∨ State.keys b = State.keys a) :
    State.gammaMem ρ (State.lub_var_wise a b) := by
  unfold State.lub_var_wise
  rcases hk with rfl | hk
  · rw [if_pos (show State.bottom = ([] : State) from rfl)]; exact hb
  · by_cases ha : a = []
    · rw [if_pos ha]; exact hb
    · rw [if_neg ha, if_neg (show ¬(b = []) from hb.1)]
      exact fold_join_sound_right _ (fun r p w hw => by simp only [hw]) b a ha hnd
        (fun p hp => by rw [← hk]; exact List.mem_map_of_mem _ hp) hb.2
        (fun q hq => Or.inr (by rw [hk]; exact List.mem_map_of_mem _ hq))

theorem State.glb_keys_cases {x a b cur : State}
    (hka : a = [] ∨ State.keys a = State.keys x)
    (hkb : b = [] ∨ State.keys b = State.keys x)
    (h : State.glb_var_wise a b = some cur) :
    cur = [] ∨ State.keys cur = State.keys x := by
  unfold State.glb_var_wise at h
  by_cases hab : a = [] ∨ b = []
  · rw [if_pos hab] at h
    obtain rfl := Option.some.inj h
    exact Or.inl rfl
  · rw [if_neg hab] at h
    push_neg at hab
    rcases hka with h1 | hka
    · exact absurd h1 hab.1
    rcases hkb with h1 | hkb
    · exact absurd h1 hab.2
    by_cases hg : ((State.keys a).all fun v => State.contains b v) = true
    · rw [if_pos hg] at h
      obtain rfl := Option.some.inj h
      right
      refine (fold_keys_preserved _ ?_ b a ?_).trans hka
      · intro r p hp
        obtain ⟨w, hw⟩ := State.lookup_isSome_of_mem_keys hp
        simp only [hw, State.keys_setKey]
      · intro p hp
        have : p.1 ∈ State.keys b := List.mem_map_of_mem _ hp
        rw [hkb, ← hka] at this
        exact this
    · rw [if_neg hg] at h
      exact Option.noConfusion h

theorem State.lub_keys_cases {x a b : State}
    (hka : a = [] ∨ State.keys a = State.keys x)
    (hkb : b = [] ∨ State.keys b = State.keys x) :
    State.lub_var_wise a b = [] ∨
      State.keys (State.lub_var_wise a b) = State.keys x := by
  unfold State.lub_var_wise
  by_cases ha : a = []
  · rw [if_pos ha]; exact hkb
  · rw [if_neg ha]
    by_cases hb : b = []
    · rw [if_pos hb]; exact hka
    · rw [if_neg hb]
      rcases hka with h1 | hka
      · exact absurd h1 ha
      rcases hkb with h1 | hkb
      · exact absurd h1 hb
      right
      refine (fold_keys_preserved _ ?_ b a ?_).trans hka
      · intro r p hp
        obtain ⟨w, hw⟩ := State.lookup_isSome_of_mem_keys hp
        simp only [hw, State.keys_setKey]
      · intro p hp
        have : p.1 ∈ State.keys b := List.mem_map_of_mem _ hp
        rw [hkb, ← hka] at this
        exact this

theorem backward_addsub_mem (m n : Int) {L R Y L2 R2 : Interval} {op : Operator}
    {l r z : ℤ}
    (hops : (op = Operator.Add ∧ z = l + r) ∨ (op = Operator.Sub ∧ z = l - r))
    (h : backward_arithmetic_operator m n L R Y op = some (L2, R2))
    (hl : Interval.mem L l) (hr : Interval.mem R r) (hy : Interval.mem Y z) :
    Interval.mem L2 l ∧ Interval.mem R2 r := by
  rcases hops with ⟨hop, hz⟩ | ⟨hop, hz⟩ <;> subst hop <;> subst hz
  · unfold backward_arithmetic_operator at h
    simp only [bind, Option.bind_eq_some] at h
    obtain ⟨d1, hd1, h⟩ := h
    obtain ⟨d2, hd2, h⟩ := h
    obtain ⟨rfl, rfl⟩ := Prod.mk.injEq .. ▸ Option.some.inj h
    constructor
    · exact Interval.mem_meet.mpr ⟨hl, by simpa using Interval.sub_sound m n hd1 hy hr⟩
    · exact Interval.mem_meet.mpr ⟨hr, by simpa using Interval.sub_sound m n hd2 hy hl⟩
  · unfold backward_arithmetic_operator at h
    simp only [bind, Option.bind_eq_some] at h
    obtain ⟨a1, ha1, h⟩ := h
    obtain ⟨a2, ha2, h⟩ := h
    obtain ⟨rfl, rfl⟩ := Prod.mk.injEq .. ▸ Option.some.inj h
    constructor
    · exact Interval.mem_meet.mpr ⟨hl, by simpa using Interval.add_sound m n ha1 hy hr⟩
    · exact Interval.mem_meet.mpr ⟨hr, by simpa using Interval.sub_sound m n ha2 hl hy⟩

theorem ANode.value_mem {ρ : String → ℤ} {env : VarMap} {a : ANode} {z : ℤ}
    {v : Interval} (ha : AnnSound ρ a z) (henv : EnvSound ρ env)
    (h : ANode.value env a = some v) : Interval.mem v z := by
  cases a with
  | int c value =>
    obtain rfl := Option.some.inj h
    exact ha.2
  | var w =>
    obtain rfl : z = ρ w := ha
    exact State.lookup_sound henv h
  | bin op l r value =>
    obtain rfl := Option.some.inj h
    exact ha.1

theorem forward_analysis_sound {ρ : String → ℤ} (m n : Int) :
    ∀ (e : ArithmeticExp) {env : VarMap} {ann : ANode} {z : ℤ},
    e.usesOnlyAddSub = true → EnvSound ρ env →
    forward_analysis m n env e = some ann → aexpSem ρ e = some z →
    AnnSound ρ ann z := by
  intro e
  induction e with
  | Integer c =>
    intro env ann z _ henv hf hs
    obtain rfl := Option.some.inj hf
    obtain rfl := Option.some.inj hs
    exact ⟨rfl, Interval.mem_constant c⟩
  | Variable v =>
    intro env ann z _ henv hf hs
    simp only [forward_analysis, bind, Option.bind_eq_some] at hf
    obtain ⟨w, hw, hf⟩ := hf
    obtain rfl := Option.some.inj hf
    exact (Option.some.inj hs).symm
  | BinaryOperation l op r ihl ihr =>
    intro env ann z hAS henv hf hs
    simp only [ArithmeticExp.usesOnlyAddSub, Bool.and_eq_true, Bool.or_eq_true,
      decide_eq_true_eq] at hAS
    obtain ⟨⟨hop, hlAS⟩, hrAS⟩ := hAS
    rcases hop with hop | hop <;> subst hop
    · simp only [forward_analysis, bind, Option.bind_eq_some] at hf
      obtain ⟨al, hal, hf⟩ := hf
      obtain ⟨ar, har, hf⟩ := hf
      obtain ⟨lv, hlv, hf⟩ := hf
      obtain ⟨rv, hrv, hf⟩ := hf
      obtain ⟨value, hvalue, hf⟩ := hf
      obtain rfl := Option.some.inj hf
      simp only [aexpSem, bind, Option.bind_eq_some] at hs
      obtain ⟨a, ha, hs⟩ := hs
      obtain ⟨b, hb, hs⟩ := hs
      obtain rfl := Option.some.inj hs
      have hla := ihl hlAS henv hal ha
      have hra := ihr hrAS henv har hb
      have hmlv : Interval.mem lv a := ANode.value_mem hla henv hlv
      have hmrv : Interval.mem rv b := ANode.value_mem hra henv hrv
      exact ⟨Interval.add_sound m n hvalue hmlv hmrv, a, b, hla, hra,
        Or.inl ⟨rfl, rfl⟩⟩
    · simp only [forward_analysis, bind, Option.bind_eq_some] at hf
      obtain ⟨al, hal, hf⟩ := hf
      obtain ⟨ar, har, hf⟩ := hf
      obtain ⟨lv, hlv, hf⟩ := hf
      obtain ⟨rv, hrv, hf⟩ := hf
      obtain ⟨value, hvalue, hf⟩ := hf
      obtain rfl := Option.some.inj hf
      simp only [aexpSem, bind, Option.bind_eq_some] at hs
      obtain ⟨a, ha, hs⟩ := hs
      obtain ⟨b, hb, hs⟩ := hs
      obtain rfl := Option.some.inj hs
      have hla := ihl hlAS henv hal ha
      have hra := ihr hrAS henv har hb
      have hmlv : Interval.mem lv a := ANode.value_mem hla henv hlv
      have hmrv : Interval.mem rv b := ANode.value_mem hra henv hrv
      exact ⟨Interval.sub_sound m n hvalue hmlv hmrv, a, b, hla, hra,
        Or.inr ⟨rfl, rfl⟩⟩

theorem backward_analysis_sound {ρ : String → ℤ} (m n : Int) :
    ∀ (a : ANode) {z : ℤ} {incoming : Interval} {env env2 : VarMap} {sat : Bool},
    AnnSound ρ a z → EnvSound ρ env → Interval.mem incoming z →
    backward_analysis m n a incoming env = some (env2, sat) →
    EnvSound ρ env2 ∧ sat = true ∧ State.keys env2 = State.keys env := by
  intro a
  induction a with
  | int c value =>
    intro z incoming env env2 sat ha henv hin hb
    obtain ⟨rfl, rfl⟩ := Prod.mk.injEq .. ▸ Option.some.inj hb
    refine ⟨henv, ?_, rfl⟩
    have hmem : Interval.mem (value.intersection_abstraction incoming) z :=
      Interval.mem_meet.mpr ⟨ha.2, hin⟩
    have hbot : (value.intersection_abstraction incoming).isBottom = false := by
      cases hbot2 : (value.intersection_abstraction incoming).isBottom
      · rfl
      · exact absurd hmem (Interval.not_mem_of_isBottom hbot2 z)
    simp [hbot]
  | var v =>
    intro z incoming env env2 sat ha henv hin hb
    simp only [backward_analysis, bind, Option.bind_eq_some] at hb
    obtain ⟨cur, hcur, hb⟩ := hb
    obtain ⟨rfl, rfl⟩ := Prod.mk.injEq .. ▸ Option.some.inj hb
    obtain rfl : z = ρ v := ha
    have hmemcur : Interval.mem cur (ρ v) := State.lookup_sound henv hcur
    have hmemnew : Interval.mem (cur.intersection_abstraction incoming) (ρ v) :=
      Interval.mem_meet.mpr ⟨hmemcur, hin⟩
    refine ⟨State.setKey_sound henv hmemnew, ?_, State.keys_setKey ..⟩
    have hbot : (cur.intersection_abstraction incoming).isBottom = false := by
      cases hbot2 : (cur.intersection_abstraction incoming).isBottom
      · rfl
      · exact absurd hmemnew (Interval.not_mem_of_isBottom hbot2 _)
    simp [hbot]
  | bin op l r value ihl ihr =>
    intro z incoming env env2 sat ha henv hin hb
    obtain ⟨hmemval, aa, bb, hal, har, hops⟩ := ha
    simp only [backward_analysis, bind, Option.bind_eq_some] at hb
    obtain ⟨lv, hlv, hb⟩ := hb
    obtain ⟨rv, hrv, hb⟩ := hb
    obtain ⟨pr, hback, hb⟩ := hb
    obtain ⟨lref, rref⟩ := pr
    simp only [Option.bind_eq_some] at hb
    obtain ⟨q1, hbl, hb⟩ := hb
    obtain ⟨envl, satl⟩ := q1
    simp only [Option.bind_eq_some] at hb
    obtain ⟨q2, hbr, hb⟩ := hb
    obtain ⟨envr, satr⟩ := q2
    obtain ⟨rfl, rfl⟩ := Prod.mk.injEq .. ▸ Option.some.inj hb
    have hmlv : Interval.mem lv aa := ANode.value_mem hal henv hlv
    have hmrv : Interval.mem rv bb := ANode.value_mem har henv hrv
    have hrefs := backward_addsub_mem m n hops hback hmlv hmrv hin
    obtain ⟨henvl, hsatl, hkl⟩ := ihl hal henv hrefs.1 hbl
    obtain ⟨henvr, hsatr, hkr⟩ := ihr har henvl hrefs.2 hbr
    subst hsatl
    subst hsatr
    exact ⟨henvr, rfl, hkr.trans hkl⟩

theorem localIter_sound {ρ : String → ℤ} (m n : Int) (e : ArithmeticExp)
    (slice : Interval) {z : ℤ} (hAS : e.usesOnlyAddSub = true)
    (hz : aexpSem ρ e = some z) (hslice : Interval.mem slice z) :
    ∀ (fuel : ℕ) (env env2 : VarMap) (sat : Bool), EnvSound ρ env →
    localIter m n e slice fuel env = some (env2, sat) →
    EnvSound ρ env2 ∧ sat = true ∧ State.keys env2 = State.keys env := by
  intro fuel
  induction fuel with
  | zero => intro env env2 sat _ h; exact Option.noConfusion h
  | succ fuel ih =>
    intro env env2 sat henv h
    simp only [localIter, bind, Option.bind_eq_some] at h
    obtain ⟨ann, hann, h⟩ := h
    obtain ⟨rootv, hrootv, h⟩ := h
    obtain ⟨q, hback, h⟩ := h
    obtain ⟨env2', sat'⟩ := q
    have hAnn := forward_analysis_sound m n e hAS henv hann hz
    have hmr : Interval.mem rootv z := ANode.value_mem hAnn henv hrootv
    have hminc : Interval.mem (rootv.intersection_abstraction slice) z :=
      Interval.mem_meet.mpr ⟨hmr, hslice⟩
    obtain ⟨henv2', hsat', hkeys'⟩ := backward_analysis_sound m n ann hAnn henv hminc hback
    subst hsat'
    have h' : (if (!(true : Bool) || State.beq m n env env2') = true
        then some (env2', true)
        else localIter m n e slice fuel env2') = some (env2, sat) := h
    cases hfix : State.beq m n env env2'
    · rw [hfix] at h'
      have h2 : localIter m n e slice fuel env2' = some (env2, sat) := h'
      obtain ⟨he, hsat, hk⟩ := ih env2' env2 sat henv2' h2
      exact ⟨he, hsat, hk.trans hkeys'⟩
    · rw [hfix] at h'
      obtain ⟨rfl, rfl⟩ := Prod.mk.injEq .. ▸ Option.some.inj h'
      exact ⟨henv2', rfl, hkeys'⟩

theorem buildVarMap_sound {ρ : String → ℤ} {state : State}
    (hstate : EnvSound ρ state) :
    ∀ (e : ArithmeticExp) {acc env0 : VarMap}, EnvSound ρ acc →
    buildVarMap state e acc = some env0 → EnvSound ρ env0 := by
  intro e
  induction e with
  | Integer c =>
    intro acc env0 hacc h
    obtain rfl := Option.some.inj h
    exact hacc
  | Variable v =>
    intro acc env0 hacc h
    simp only [buildVarMap] at h
    by_cases hc : State.contains acc v = true
    · rw [if_pos hc] at h
      obtain rfl := Option.some.inj h
      exact hacc
    · rw [if_neg hc] at h
      simp only [bind, Option.bind_eq_some] at h
      obtain ⟨val, hval, h⟩ := h
      obtain rfl := Option.some.inj h
      intro p hp
      rcases List.mem_append.mp hp with hp | hp
      · exact hacc p hp
      · obtain rfl := List.mem_singleton.mp hp
        exact State.lookup_sound hstate hval
  | BinaryOperation l op r ihl ihr =>
    intro acc env0 hacc h
    simp only [buildVarMap, bind, Option.bind_eq_some] at h
    obtain ⟨a1, ha1, h⟩ := h
    exact ihr (ihl hacc ha1) h

theorem rootInit_mem {ρ : String → ℤ} {state : State} (hstate : EnvSound ρ state)
    {e : ArithmeticExp} {r0 : Interval} {z : ℤ}
    (h : rootInit state e = some r0) (hz : aexpSem ρ e = some z) :
    Interval.mem r0 z := by
  cases e with
  | Integer c =>
    obtain rfl := Option.some.inj h
    obtain rfl := Option.some.inj hz
    exact Interval.mem_constant c
  | Variable v =>
    obtain rfl : ρ v = z := Option.some.inj hz
    exact State.lookup_sound hstate h
  | BinaryOperation l op r =>
    obtain rfl := Option.some.inj h
    exact Interval.mem_TOP z

theorem mem_sliceOf {ρ : String → ℤ} {e : ArithmeticExp} {op : ConditionOperator}
    {z : ℤ} {r0 : Interval} (hz : aexpSem ρ e = some z)
    (hsat : condSat ρ ⟨e, op⟩) (hr0 : Interval.mem r0 z) :
    Interval.mem (sliceOf r0 op) z := by
  obtain ⟨z', hz', hcase⟩ := hsat
  rw [hz] at hz'
  obtain rfl := Option.some.inj hz'
  cases op with
  | Equal =>
    obtain rfl : z = 0 := hcase
    exact Interval.mem_constant 0
  | NotEqual =>
    have hne : z ≠ 0 := hcase
    rcases lt_or_gt_of_ne hne with hlt | hgt
    · exact Interval.mem_join_left (Interval.mem_meet.mpr
        ⟨⟨rfl, by simp [Int.ble]; omega⟩, hr0⟩)
    · exact Interval.mem_join_right (Interval.mem_meet.mpr
        ⟨⟨by simp [Int.ble]; omega, rfl⟩, hr0⟩)
  | StrictlyLess =>
    have hlt : z < 0 := hcase
    exact ⟨rfl, by simp [sliceOf, Int.ble]; omega⟩
  | GreaterOrEqual =>
    have hge : 0 ≤ z := hcase
    exact ⟨by simp [sliceOf, Int.ble]; omega, rfl⟩

theorem local_iterations_sound {ρ : String → ℤ} (m n : Int)
    {c : ArithmeticCondition} {state : State} {fuel : ℕ} {out : State}
    (hAS : c.lhs.usesOnlyAddSub = true) (hmem : State.gammaMem ρ state)
    (hsat : condSat ρ c) (h : local_iterations m n c state fuel = some out) :
    State.gammaMem ρ out := by
  obtain ⟨e, op⟩ := c
  obtain ⟨hne, hstate⟩ := hmem
  obtain ⟨z, hz, hcase⟩ := hsat
  simp only [local_iterations, bind, Option.bind_eq_some] at h
  obtain ⟨env0, henv0, h⟩ := h
  obtain ⟨r0, hr0, h⟩ := h
  obtain ⟨q, hli, h⟩ := h
  obtain ⟨env, sat⟩ := q
  have henv0s : EnvSound ρ env0 :=
    buildVarMap_sound hstate e (fun p hp => absurd hp (List.not_mem_nil _)) henv0
  have hr0m : Interval.mem r0 z := rootInit_mem hstate hr0 hz
  have hslice : Interval.mem (sliceOf r0 op) z :=
    mem_sliceOf hz ⟨z, hz, hcase⟩ hr0m
  obtain ⟨henvS, hsatT, _⟩ :=
    localIter_sound m n e (sliceOf r0 op) hAS hz hslice fuel env0 env sat henv0s hli
  subst hsatT
  have h' : some (env.foldl (fun st p => State.update m n st p.1 p.2) state)
      = some out := h
  obtain rfl := Option.some.inj h'
  exact fold_update_sound m n _ (fun st p => rfl) env state henvS ⟨hne, hstate⟩

theorem local_iterations_keys (m n : Int) {c : ArithmeticCondition}
    {state : State} {fuel : ℕ} {out : State}
    (h : local_iterations m n c state fuel = some out) :
    out = [] ∨ State.keys out = State.keys state := by
  simp only [local_iterations, bind, Option.bind_eq_some] at h
  obtain ⟨env0, _, h⟩ := h
  obtain ⟨r0, _, h⟩ := h
  obtain ⟨q, _, h⟩ := h
  obtain ⟨env, sat⟩ := q
  cases sat
  · have h' : some State.bottom = some out := h
    obtain rfl := Option.some.inj h'
    exact Or.inl rfl
  · have h' : some (env.foldl (fun st p => State.update m n st p.1 p.2) state)
        = some out := h
    obtain rfl := Option.some.inj h'
    exact fold_update_keys m n _ (fun st p => rfl) env state

theorem bexp_eval_core_keys (m n : Int) (liF : ℕ) :
    ∀ (fuel : ℕ) (task : BexpTask) (s out : State),
    bexp_eval_core m n liF fuel task s = some out →
    out = [] ∨ State.keys out = State.keys s := by
  intro fuel
  induction fuel with
  | zero => intro task s out h; exact Option.noConfusion h
  | succ fuel ih =>
    intro task s out h
    cases task with
    | eval e =>
      cases e with
      | Boolean b =>
        cases b
        · obtain rfl := Option.some.inj h
          exact Or.inl rfl
        · obtain rfl := Option.some.inj h
          exact Or.inr rfl
      | ArithmeticCondition c => exact local_iterations_keys m n h
      | And l r => exact ih (.andLoop l r) s out h
      | Or l r => exact ih (.orLoop l r) s out h
    | andLoop l r =>
      simp only [bexp_eval_core, bind, Option.bind_eq_some] at h
      obtain ⟨a, hA, h⟩ := h
      obtain ⟨b, hB, h⟩ := h
      obtain ⟨cur, hcur, h⟩ := h
      have hka := ih (.eval l) s a hA
      have hkb := ih (.eval r) s b hB
      have hkc := State.glb_keys_cases hka hkb hcur
      by_cases hcond : (State.beq m n cur s || decide (cur = State.bottom)) = true
      · rw [if_pos hcond] at h
        obtain rfl := Option.some.inj h
        exact hkc
      · rw [if_neg hcond] at h
        rcases ih (.andLoop l r) cur out h with h1 | h1
        · exact Or.inl h1
        · rcases hkc with h2 | h2
          · subst h2
            cases hout : out with
            | nil => exact Or.inl rfl
            | cons q qs => rw [hout] at h1; exact absurd h1 (by simp [State.keys])
          · exact Or.inr (h1.trans h2)
    | orLoop l r =>
      simp only [bexp_eval_core, bind, Option.bind_eq_some] at h
      obtain ⟨a, hA, h⟩ := h
      obtain ⟨b, hB, h⟩ := h
      have hka := ih (.eval l) s a hA
      have hkb := ih (.eval r) s b hB
      have hkc := State.lub_keys_cases hka hkb
      by_cases hcond : (State.beq m n (State.lub_var_wise a b) s
          || decide (State.lub_var_wise a b = State.bottom)) = true
      · rw [if_pos hcond] at h
        obtain rfl := Option.some.inj h
        exact hkc
      · rw [if_neg hcond] at h
        rcases ih (.orLoop l r) _ out h with h1 | h1
        · exact Or.inl h1
        · rcases hkc with h2 | h2
          · rw [h2] at h1
            cases hout : out with
            | nil => exact Or.inl rfl
            | cons q qs => rw [hout] at h1; exact absurd h1 (by simp [State.keys])
          · exact Or.inr (h1.trans h2)

theorem bexp_eval_core_sound {ρ : String → ℤ} (m n : Int) (liF : ℕ) :
    ∀ (fuel : ℕ) (task : BexpTask) (s out : State),
    BexpTask.guardOk task = true → (State.keys s).Nodup →
    bexp_eval_core m n liF fuel task s = some out →
    State.gammaMem ρ s → BexpTask.sat ρ task →
    State.gammaMem ρ out := by
  intro fuel
  induction fuel with
  | zero => intro task s out _ _ h _ _; exact Option.noConfusion h
  | succ fuel ih =>
    intro task s out hok hnd h hs hsat
    cases task with
    | eval e =>
      cases e with
      | Boolean b =>
        cases b
        · exact absurd (hsat : false = true) Bool.false_ne_true
        · obtain rfl := Option.some.inj h
          exact hs
      | ArithmeticCondition c => exact local_iterations_sound m n hok hs hsat h
      | And l r => exact ih (.andLoop l r) s out hok hnd h hs hsat
      | Or l r => exact ih (.orLoop l r) s out hok hnd h hs hsat
    | andLoop l r =>
      have hok2 : l.usesOnlyAddSub = true ∧ r.usesOnlyAddSub = true := by
        have h0 : (l.usesOnlyAddSub && r.usesOnlyAddSub) = true := hok
        simp only [Bool.and_eq_true] at h0
        exact h0
      obtain ⟨hokl, hokr⟩ := hok2
      obtain ⟨hsl, hsr⟩ := hsat
      simp only [bexp_eval_core, bind, Option.bind_eq_some] at h
      obtain ⟨a, hA, h⟩ := h
      obtain ⟨b, hB, h⟩ := h
      obtain ⟨cur, hcur, h⟩ := h
      have hga := ih (.eval l) s a hokl hnd hA hs hsl
      have hgb := ih (.eval r) s b hokr hnd hB hs hsr
      have hgc := State.glb_sound hga hgb hcur
      by_cases hcond : (State.beq m n cur s || decide (cur = State.bottom)) = true
      · rw [if_pos hcond] at h
        obtain rfl := Option.some.inj h
        exact hgc
      · rw [if_neg hcond] at h
        have hka := bexp_eval_core_keys m n liF fuel (.eval l) s a hA
        have hkb := bexp_eval_core_keys m n liF fuel (.eval r) s b hB
        rcases State.glb_keys_cases hka hkb hcur with h2 | h2
        · exact absurd h2 hgc.1
        · have hndc : (State.keys cur).Nodup := by rw [h2]; exact hnd
          exact ih (.andLoop l r) cur out hok hndc h hgc ⟨hsl, hsr⟩
    | orLoop l r =>
      have hok2 : l.usesOnlyAddSub = true ∧ r.usesOnlyAddSub = true := by
        have h0 : (l.usesOnlyAddSub && r.usesOnlyAddSub) = true := hok
        simp only [Bool.and_eq_true] at h0
        exact h0
      obtain ⟨hokl, hokr⟩ := hok2
      simp only [bexp_eval_core, bind, Option.bind_eq_some] at h
      obtain ⟨a, hA, h⟩ := h
      obtain ⟨b, hB, h⟩ := h
      have hka := bexp_eval_core_keys m n liF fuel (.eval l) s a hA
      have hkb := bexp_eval_core_keys m n liF fuel (.eval r) s b hB
      have hgc : State.gammaMem ρ (State.lub_var_wise a b) := by
        rcases hsat with hsl | hsr
        · have hga := ih (.eval l) s a hokl hnd hA hs hsl
          refine State.lub_sound_left hga ?_
          rcases hkb with h2 | h2
          · exact Or.inl h2
          · rcases hka with h3 | h3
            · exact absurd h3 hga.1
            · exact Or.inr (h2.trans h3.symm)
        · have hgb := ih (.eval r) s b hokr hnd hB hs hsr
          refine State.lub_sound_right hgb ?_ ?_
          · rcases hka with h3 | h3
            · rw [h3]; exact List.nodup_nil
            · rw [h3]; exact hnd
          · rcases hka with h3 | h3
            · exact Or.inl h3
            · rcases hkb with h2 | h2
              · exact absurd h2 hgb.1
              · exact Or.inr (h2.trans h3.symm)
      by_cases hcond : (State.beq m n (State.lub_var_wise a b) s
          || decide (State.lub_var_wise a b = State.bottom)) = true
      · rw [if_pos hcond] at h
        obtain rfl := Option.some.inj h
        exact hgc
      · rw [if_neg hcond] at h
        rcases State.lub_keys_cases hka hkb with h2 | h2
        · exact absurd h2 hgc.1
        · have hndc : (State.keys (State.lub_var_wise a b)).Nodup := by
            rw [h2]; exact hnd
          exact ih (.orLoop l r) _ out hok hndc h hgc hsat

/-- Claim C2, counterexample.  Both halves of the claim fail on the full
guard language.  Completeness half: the guard (x + x) − 1 = 0 is
unsatisfiable over γ(x ↦ [0,1]) — no integer x has 2x = 1 — yet guard
refinement returns the unchanged non-bottom state instead of bottom.
Soundness half (for guards with multiplication): the guard x · 0 = 0 is
satisfied by the valuation x ↦ 5 lying in γ(x ↦ [5,5]), yet refinement
returns the bottom state, excluding it (the backward Mul transformer
divides by the ZERO interval, see claim C3). -/
theorem C2_refinement_counterexample :
    (bexp_eval .NegInf .PosInf 20 20
      (.ArithmeticCondition ⟨.BinaryOperation
        (.BinaryOperation (.Variable "x") .Add (.Variable "x")) .Sub (.Integer 1),
        .Equal⟩)
      [("x", ⟨.Num 0, .Num 1⟩)] = some [("x", ⟨.Num 0, .Num 1⟩)] ∧
     unsatOn (.ArithmeticCondition ⟨.BinaryOperation
        (.BinaryOperation (.Variable "x") .Add (.Variable "x")) .Sub (.Integer 1),
        .Equal⟩) [("x", ⟨.Num 0, .Num 1⟩)] ∧
     ([("x", (⟨.Num 0, .Num 1⟩ : Interval))] : State) ≠ State.bottom) ∧
    (bexp_eval .NegInf .PosInf 1 1
      (.ArithmeticCondition ⟨.BinaryOperation (.Variable "x") .Mul (.Integer 0),
        .Equal⟩) [("x", ⟨.Num 5, .Num 5⟩)] = some State.bottom ∧
     State.gammaMem (fun _ => 5) [("x", ⟨.Num 5, .Num 5⟩)] ∧
     bsat (fun _ => 5) (.ArithmeticCondition ⟨.BinaryOperation (.Variable "x")
        .Mul (.Integer 0), .Equal⟩) ∧
     ¬ State.gammaMem (fun _ => 5) State.bottom) := by
  refine ⟨⟨by decide, ?_, by decide⟩,
          ?_, ⟨by decide, by decide⟩, ⟨0, by decide, by decide⟩, ?_⟩
  · intro ρ hmem hsat
    obtain ⟨z, hz, hcase⟩ := hsat
    simp only [aexpSem, bind, Option.bind] at hz
    have h1 : ρ "x" + ρ "x" - 1 = z := Option.some.inj hz
    have h2 : z = 0 := hcase
    omega
  · show local_iterations .NegInf .PosInf
      ⟨.BinaryOperation (.Variable "x") .Mul (.Integer 0), .Equal⟩
      [("x", ⟨.Num 5, .Num 5⟩)] 1 = some State.bottom
    have hback : backward_arithmetic_operator .NegInf .PosInf ⟨.Num 5, .Num 5⟩
        ⟨.Num 0, .Num 0⟩ ⟨.Num 0, .Num 0⟩ .Mul = some (BOTTOM, BOTTOM) := by
      simp [backward_arithmetic_operator, Interval.div.eq_def, Interval.beq, Interval.isBottom,
        Interval.isTop, Int.blt, Int.ble, BOTTOM, ZERO, TOP, Int.min4, Int.max4, Int.min, Int.max,
        Int.div, tdivZ, Int.neg, Interval.union_abstraction, Interval.intersection_abstraction]
    have hbk : backward_analysis .NegInf .PosInf
        (.bin .Mul (.var "x") (.int 0 ⟨.Num 0, .Num 0⟩) ⟨.Num 0, .Num 0⟩)
        ⟨.Num 0, .Num 0⟩ [("x", ⟨.Num 5, .Num 5⟩)] = some ([("x", BOTTOM)], false) := by
      simp [backward_analysis, ANode.value, State.lookup, State.setKey, hback, bind, Option.bind,
        Interval.intersection_abstraction, Int.max, Int.min, Int.blt, Int.ble,
        Interval.isBottom, BOTTOM]
    have hli : localIter .NegInf .PosInf
        (.BinaryOperation (.Variable "x") .Mul (.Integer 0)) ⟨.Num 0, .Num 0⟩ 1
        [("x", ⟨.Num 5, .Num 5⟩)] = some ([("x", BOTTOM)], false) := by
      simp [localIter, bind, Option.bind, forward_analysis, ANode.value, State.lookup,
        Interval.mul, Interval.constant_abstraction, Interval.beq, Interval.isBottom,
        Interval.isTop, Int.blt, Int.ble, Int.mul, Int.min4, Int.max4, Int.min, Int.max,
        Interval.intersection_abstraction, TOP, BOTTOM, ZERO, Interval.mem, hbk]
    simp [local_iterations, bind, Option.bind, buildVarMap, State.contains, State.lookup,
      rootInit, sliceOf, Interval.constant_abstraction, hli]
  · intro hg
    exact hg.1 rfl

/-- Claim C2 as amended: for guards whose atomic conditions use only
addition and subtraction, refinement is sound — on a state with distinct
keys (a HashMap in the source), every concrete valuation in the
concretization of the input state that satisfies the guard is still in the
concretization of the returned state.  The completeness half of the
original claim (unsatisfiable implies bottom) is dropped, and guards with
multiplication or division are excluded from the soundness half; both
failures are recorded in the counterexample. -/
theorem C2_refinement_sound_amended (m n : Int) (liF fuel : ℕ) (B : BooleanExp)
    (s out : State) (ρ : String → ℤ)
    (hAS : B.usesOnlyAddSub = true) (hnd : (State.keys s).Nodup)
    (h : bexp_eval m n liF fuel B s = some out)
    (hs : State.gammaMem ρ s) (hsat : bsat ρ B) :
    State.gammaMem ρ out :=
  bexp_eval_core_sound m n liF fuel (.eval B) s out hAS hnd h hs hsat

/-- Witness for the amended claim C2: refining the guard x − 1 ≥ 0 on the
state x ↦ [0,5] returns x ↦ [1,5], and the valuation x ↦ 2, which lies in
γ(x ↦ [0,5]) and satisfies the guard, lies in γ(x ↦ [1,5]). -/
theorem C2_refinement_sound_amended_witness :
    bexp_eval .NegInf .PosInf 10 10
      (.ArithmeticCondition ⟨.BinaryOperation (.Variable "x") .Sub (.Integer 1),
        .GreaterOrEqual⟩) [("x", ⟨.Num 0, .Num 5⟩)]
      = some [("x", ⟨.Num 1, .Num 5⟩)] ∧
    State.gammaMem (fun _ => 2) [("x", ⟨.Num 1, .Num 5⟩)] :=
  ⟨by decide,
   C2_refinement_sound_amended .NegInf .PosInf 10 10
     (.ArithmeticCondition ⟨.BinaryOperation (.Variable "x") .Sub (.Integer 1),
       .GreaterOrEqual⟩)
     [("x", ⟨.Num 0, .Num 5⟩)] [("x", ⟨.Num 1, .Num 5⟩)] (fun _ => 2)
     (by decide) (by decide) (by decide) ⟨by decide, by decide⟩
     ⟨1, by decide, by decide⟩⟩

end AbsInt
